import Mathlib

/-!
Verification of the QR-decomposition linear solver in
src/linear_algebra/solving_equations/QR_method/QR_functions.py.

Modelling decisions:
* Python floats are modelled by exact real numbers; the claims themselves are
  stated for exact arithmetic.
* A matrix is a list of columns (each a list of reals), following the
  repository's column-major data model; qr_decomposition transposes its
  factors to row-major form before returning them, exactly as the source does.
* Python raises ZeroDivisionError on float division by zero, and the
  collaborator matmul/inverse raise shape/singularity errors; fallible code is
  therefore modelled in the Except monad over an error-class type Err.
* The generic linear-algebra helpers (mul, transpose, matmul, inverse,
  get_vector_norm, split_by_vectors) are imported by the source from
  linear_algebra.functions, a module that is not part of the sources at hand;
  those definitions are modelled from the spec's collaborator contract and are
  marked so in their doc comments.
* print_matrix calls are pure diagnostics (I/O only) and are omitted; the one
  collaborator call made only for printing, the product R·R⁻¹, is kept because
  it passes through the error monad.
* The model is faithful for nonempty rectangular input in the coefficient
  part; on an empty matrix the Python code raises IndexError instead.
-/

namespace QRMethod

open Matrix

/-- Error classes of the spec's error taxonomy: DegenerateInput surfaces as a
division by zero, ShapeMismatch from matmul, SingularMatrix from inverse. -/
inductive Err where
  | divisionByZero
  | shapeMismatch
  | singularMatrix
  deriving DecidableEq

/-- Matrices are lists of vectors, as in the source's matrix_shape. -/
abbrev vector_shape := List ℝ

abbrev matrix_shape := List vector_shape

/-- Modelled from the spec: dot(u, v), the Euclidean inner product of two
equal-length vectors (the source's mul from linear_algebra.functions). -/
noncomputable def mul (u v : vector_shape) : ℝ :=
  (List.zipWith (fun a b => a * b) u v).sum

/-- Modelled from the spec: vectorNorm(v), the Euclidean norm
(square root of the sum of squares), the source's get_vector_norm. -/
noncomputable def get_vector_norm (v : vector_shape) : ℝ :=
  Real.sqrt (mul v v)

/-- Modelled from the spec: transpose(M) swaps row/column orientation.
Row i of the result collects entry i of every row of M. -/
noncomputable def transpose (M : matrix_shape) : matrix_shape :=
  (List.range (M.headD []).length).map (fun i => M.map (fun r => r.getD i 0))

open Classical in
/-- Modelled from the spec: matmul(A, B), the standard row-major matrix
product, failing with a ShapeMismatch-class error if inner dimensions
disagree. -/
noncomputable def matmul (A B : matrix_shape) : Except Err matrix_shape :=
  if ∀ r ∈ A, r.length = B.length then
    Except.ok (A.map (fun r => (transpose B).map (fun c => mul r c)))
  else Except.error Err.shapeMismatch

/-- Square-matrix view of a list-of-rows matrix, entry (i, j) read by index. -/
noncomputable def toSquare (M : matrix_shape) (k : ℕ) : Matrix (Fin k) (Fin k) ℝ :=
  Matrix.of fun i j => (M.getD i.val []).getD j.val 0

/-- List-of-rows form of a square matrix. -/
noncomputable def ofSquare (k : ℕ) (N : Matrix (Fin k) (Fin k) ℝ) : matrix_shape :=
  (List.finRange k).map fun i => (List.finRange k).map fun j => N i j

open Classical in
/-- Modelled from the spec: inverse(M) fails with a SingularMatrix-class error
if M is not square or not invertible, and otherwise returns the inverse. -/
noncomputable def inverse (M : matrix_shape) : Except Err matrix_shape :=
  if (∀ r ∈ M, r.length = M.length) ∧ (toSquare M M.length).det ≠ 0 then
    Except.ok (ofSquare M.length (toSquare M M.length)⁻¹)
  else Except.error Err.singularMatrix

/-- Modelled from the spec: splitAugmented(M) separates the last column (the
right-hand side b) from the coefficient columns (the source's
split_by_vectors). -/
def split_by_vectors (M : matrix_shape) : matrix_shape × vector_shape :=
  (M.dropLast, M.getLastD [])

open Classical in
/-- Embeds projection_value: proj = ⟨A[i], U[j]⟩ / ⟨U[j], U[j]⟩, raising a
division-by-zero error when the denominator is zero, as Python float division
does. -/
noncomputable def projection_value (A U : matrix_shape) (i j : ℕ) :
    Except Err ℝ :=
  let f := A.getD i []
  let u := U.getD j []
  let f_u := mul f u
  let u_u := mul u u
  if u_u = 0 then Except.error Err.divisionByZero else Except.ok (f_u / u_u)

/-- One pass of the innermost loops of orthogonalize_matrix: compute the
projection of column c on prior column p and subtract proj * U[p] from the
current working column at every index i < n. -/
noncomputable def ortho_step (A U : matrix_shape) (n c : ℕ)
    (ucur : vector_shape) (p : ℕ) : Except Err vector_shape := do
  let proj ← projection_value A U c p
  pure ((List.range n).map fun i => ucur.getD i 0 - proj * (U.getD p []).getD i 0)

/-- The body of orthogonalize_matrix for one column c: starting from a copy of
A[c], subtract the projections on the already-orthogonalized columns
p = 0, …, c-1 in increasing order. -/
noncomputable def ortho_col (A U : matrix_shape) (n c : ℕ) :
    Except Err vector_shape :=
  (List.range c).foldlM (ortho_step A U n c) (A.getD c [])

/-- One iteration of the outer loop of orthogonalize_matrix: compute the next
orthogonalized column c = k + 1 and store it. -/
noncomputable def ortho_outer (A : matrix_shape) (n : ℕ) (U : matrix_shape)
    (k : ℕ) : Except Err matrix_shape := do
  let uc ← ortho_col A U n (k + 1)
  pure (U ++ [uc])

/-- Embeds orthogonalize_matrix: U[0] is a copy of A[0], and each later column
is A[c] minus its projections on the previous orthogonalized columns.  The
Python code preallocates U and assigns U[c] in increasing c; since column c
only reads columns p < c, growing the list by appending is equivalent. -/
noncomputable def orthogonalize_matrix (A : matrix_shape) :
    Except Err matrix_shape :=
  (List.range (A.length - 1)).foldlM
    (ortho_outer A (A.getD 0 []).length) [A.getD 0 []]

open Classical in
/-- Embeds normalize_matrix: divide every entry i < n of each column by that
column's Euclidean norm, where n is the length of the first column.  The
division sits inside the per-entry loop over range n, so a zero norm raises a
division-by-zero error only when n is positive; for n = 0 the loop body never
runs and the column passes through as the empty list. -/
noncomputable def normalize_matrix (U : matrix_shape) :
    Except Err matrix_shape :=
  let n := (U.getD 0 []).length
  U.mapM fun u =>
    let len := get_vector_norm u
    if len = 0 ∧ 0 < n then Except.error Err.divisionByZero
    else Except.ok ((List.range n).map fun i => u.getD i 0 / len)

/-- Embeds gram_schmidt_orthonormalization: orthogonalize, then normalize. -/
noncomputable def gram_schmidt_orthonormalization (A : matrix_shape) :
    Except Err matrix_shape := do
  let U ← orthogonalize_matrix A
  let Q ← normalize_matrix U
  pure Q

/-- Embeds get_r_matrix: R = Qᵗ·A for row-major Q and A. -/
noncomputable def get_r_matrix (Q A : matrix_shape) : Except Err matrix_shape :=
  matmul (transpose Q) A

/-- Embeds qr_decomposition: Gram-Schmidt gives the column-major Q, both Q and
A are then transposed to row-major form (the source's comment: return them
back to original shape) and R = Qᵗ·A is computed on the row-major forms. -/
noncomputable def qr_decomposition (A : matrix_shape) :
    Except Err (matrix_shape × matrix_shape) := do
  let Q0 ← gram_schmidt_orthonormalization A
  let Q := transpose Q0
  let A2 := transpose A
  let R ← get_r_matrix Q A2
  pure (Q, R)

/-- Embeds get_equation_params: C = Qᵗ·b, invert R, multiply (the product
R·R⁻¹ is computed in the source only to be printed, but it passes through the
error monad so it is kept), and return the single column of R⁻¹·C as the
solution vector. -/
noncomputable def get_equation_params (Q R : matrix_shape) (b : vector_shape) :
    Except Err vector_shape := do
  let bm := transpose [b]
  let C ← matmul (transpose Q) bm
  let r_inverse ← inverse R
  let _ ← matmul R r_inverse
  let RC ← matmul r_inverse C
  pure ((transpose RC).getD 0 [])

/-- Embeds solve_with_qr_decomposition: split the augmented matrix, decompose
the coefficient part, and solve via x = R⁻¹·Qᵗ·b. -/
noncomputable def solve_with_qr_decomposition (M : matrix_shape) :
    Except Err vector_shape := do
  let Ab := split_by_vectors M
  let QR ← qr_decomposition Ab.1
  get_equation_params QR.1 QR.2 Ab.2

/-- Entry (i, j) of a list-of-lists matrix, 0 outside the stored range. -/
noncomputable def ent (M : matrix_shape) (i j : ℕ) : ℝ :=
  (M.getD i []).getD j 0

/-- A length-n vector view of a list. -/
noncomputable def vecFn (n : ℕ) (v : vector_shape) : Fin n → ℝ :=
  fun i => v.getD i.val 0

/-- The family of a matrix's columns as length-n vectors. -/
noncomputable def colFam (A : matrix_shape) (n : ℕ) :
    Fin A.length → (Fin n → ℝ) :=
  fun c => vecFn n (A.getD c.val [])

/-- Full column rank of the column-major matrix A with columns of length n. -/
def columnsLI (A : matrix_shape) (n : ℕ) : Prop :=
  LinearIndependent ℝ (colFam A n)

/-- The classical Gram-Schmidt projection coefficient ⟨f, u⟩ / ⟨u, u⟩. -/
noncomputable def projR (f u : vector_shape) : ℝ := mul f u / mul u u

/-- The m×m identity matrix as a list of rows. -/
noncomputable def idMat (m : ℕ) : matrix_shape :=
  (List.range m).map fun i => (List.range m).map fun j => if i = j then (1 : ℝ) else 0

/-- The spec's solution formula x = R⁻¹·(Qᵗ·b) for the row-major factors Q
(n×m) and R (m×m) and the right-hand side b, as an m-vector. -/
noncomputable def qr_solution_spec (Q R : matrix_shape) (b : vector_shape)
    (n m : ℕ) : Fin m → ℝ :=
  (toSquare R m)⁻¹ *ᵥ ((Matrix.of fun (i : Fin n) (c : Fin m) => ent Q i c)ᵀ *ᵥ vecFn n b)

/-! Basic list toolkit. -/

theorem getD_map_range {α : Type} (f : ℕ → α) (d : α) {n i : ℕ} (h : i < n) :
    ((List.range n).map f).getD i d = f i := by
  rw [List.getD_eq_getElem _ _ (by simpa using h)]
  simp

theorem getD_map_lt {α β : Type} (f : α → β) (l : List α) (d : β) {j : ℕ}
    (h : j < l.length) : (l.map f).getD j d = f l[j] := by
  rw [List.getD_eq_getElem _ _ (by simpa using h)]
  simp

theorem list_eq_range_map (w : vector_shape) (n : ℕ) (f : ℕ → ℝ)
    (hw : w.length = n) (h : ∀ i < n, w.getD i 0 = f i) :
    w = (List.range n).map f := by
  apply List.ext_getElem (by simpa using hw)
  intro i h1 h2
  have hi : i < n := by simpa using h2
  have := h i hi
  rw [List.getD_eq_getElem _ _ (by omega)] at this
  simpa using this

theorem getD_snoc_lt {α : Type} (l : List α) (x d : α) {p : ℕ}
    (h : p < l.length) : (l ++ [x]).getD p d = l.getD p d := by
  rw [List.getD_eq_getElem _ _ (by simp; omega),
    List.getD_eq_getElem _ _ h, List.getElem_append_left]

theorem getD_snoc_self {α : Type} (l : List α) (x d : α) :
    (l ++ [x]).getD l.length d = x := by
  rw [List.getD_eq_getElem _ _ (by simp)]
  simp

/-! Dot-product toolkit. -/

theorem mul_nil_left (v : vector_shape) : mul [] v = 0 := by
  simp [mul]

theorem mul_nil_right (u : vector_shape) : mul u [] = 0 := by
  simp [mul]

theorem mul_cons (a b : ℝ) (u v : vector_shape) :
    mul (a :: u) (b :: v) = a * b + mul u v := by
  simp [mul]

theorem mul_eq_sum : ∀ (u v : vector_shape) (n : ℕ),
    u.length = n → v.length = n →
    mul u v = ∑ i ∈ Finset.range n, u.getD i 0 * v.getD i 0 := by
  intro u
  induction u with
  | nil =>
    intro v n hu hv
    have : n = 0 := by simpa using hu.symm
    subst this
    simp [mul_nil_left]
  | cons a u ih =>
    intro v n hu hv
    cases v with
    | nil =>
      exfalso
      rw [← hu] at hv
      simp at hv
    | cons b v =>
      have hn : n = u.length + 1 := by simpa using hu.symm
      subst hn
      rw [mul_cons, Finset.sum_range_succ']
      simp only [List.getD_cons_succ, List.getD_cons_zero]
      rw [ih v u.length rfl (by simpa using hv)]
      ring

theorem mul_comm_list : ∀ (u v : vector_shape), mul u v = mul v u := by
  intro u
  induction u with
  | nil => intro v; rw [mul_nil_left, mul_nil_right]
  | cons a u ih =>
    intro v
    cases v with
    | nil => rw [mul_nil_left, mul_nil_right]
    | cons b v => rw [mul_cons, mul_cons, ih, mul_comm a b]

theorem mul_self_nonneg_list : ∀ v : vector_shape, 0 ≤ mul v v := by
  intro v
  induction v with
  | nil => rw [mul_nil_left]
  | cons a v ih =>
    rw [mul_cons]
    have := mul_self_nonneg a
    linarith

theorem mul_self_eq_zero_entries : ∀ (v : vector_shape), mul v v = 0 →
    ∀ i : ℕ, v.getD i 0 = 0 := by
  intro v
  induction v with
  | nil => intro _ i; cases i <;> simp
  | cons a v ih =>
    intro h i
    rw [mul_cons] at h
    have h1 : 0 ≤ a * a := mul_self_nonneg a
    have h2 : 0 ≤ mul v v := mul_self_nonneg_list v
    have ha : a = 0 := by nlinarith
    have hv : mul v v = 0 := by linarith
    cases i with
    | zero => simpa using ha
    | succ j => simpa using ih hv j

theorem vecFn_eq_zero_of_mul_self (n : ℕ) (v : vector_shape)
    (h : mul v v = 0) : vecFn n v = 0 := by
  funext i
  simpa [vecFn] using mul_self_eq_zero_entries v h i.val

theorem norm_eq_zero_iff (v : vector_shape) :
    get_vector_norm v = 0 ↔ mul v v = 0 := by
  unfold get_vector_norm
  rw [Real.sqrt_eq_zero (mul_self_nonneg_list v)]

/-! Transpose toolkit. -/

theorem transpose_length (M : matrix_shape) :
    (transpose M).length = (M.headD []).length := by
  simp [transpose]

theorem transpose_row (M : matrix_shape) {i : ℕ}
    (h : i < (M.headD []).length) :
    (transpose M).getD i [] = M.map (fun r => r.getD i 0) := by
  unfold transpose
  exact getD_map_range _ _ h

theorem transpose_row_length (M : matrix_shape) {i : ℕ}
    (h : i < (M.headD []).length) :
    ((transpose M).getD i []).length = M.length := by
  rw [transpose_row M h]
  simp

theorem headD_length_of_rect (M : matrix_shape) (n : ℕ) (hne : M ≠ [])
    (hrect : ∀ r ∈ M, r.length = n) : (M.headD []).length = n := by
  cases M with
  | nil => exact absurd rfl hne
  | cons r M => exact hrect r (by simp)

theorem ent_transpose (M : matrix_shape) {i j : ℕ}
    (hi : i < (M.headD []).length) (hj : j < M.length) :
    ent (transpose M) i j = ent M j i := by
  unfold ent
  rw [transpose_row M hi, getD_map_lt _ _ _ hj,
    List.getD_eq_getElem _ _ hj]

theorem transpose_transpose (M : matrix_shape) (n : ℕ) (hne : M ≠ [])
    (hn : 0 < n) (hrect : ∀ r ∈ M, r.length = n) :
    transpose (transpose M) = M := by
  have hhd : (M.headD []).length = n := headD_length_of_rect M n hne hrect
  have hTlen : (transpose M).length = n := by rw [transpose_length, hhd]
  have hTne : transpose M ≠ [] := by
    intro h
    rw [h] at hTlen
    simp at hTlen
    omega
  have hTrect : ∀ r ∈ transpose M, r.length = M.length := by
    intro r hr
    unfold transpose at hr
    simp only [List.mem_map, List.mem_range] at hr
    obtain ⟨i, _, rfl⟩ := hr
    simp
  have hThd : ((transpose M).headD []).length = M.length :=
    headD_length_of_rect _ _ hTne hTrect
  apply List.ext_getElem
  · rw [transpose_length, hThd]
  · intro c h1 h2
    have hc : c < M.length := h2
    have hMc : M[c].length = n := hrect _ (List.getElem_mem _)
    apply List.ext_getElem
    · have e : (transpose (transpose M))[c] = (transpose M).map (fun r => r.getD c 0) := by
        rw [← List.getD_eq_getElem _ [] h1]
        exact transpose_row _ (by rw [hThd]; exact hc)
      rw [e, hMc]
      simp [hTlen]
    · intro i hi1 hi2
      have hin : i < n := by
        have : (transpose (transpose M))[c].length = n := by
          have e : (transpose (transpose M))[c] = (transpose M).map (fun r => r.getD c 0) := by
            rw [← List.getD_eq_getElem _ [] h1, transpose_row _ (by rw [hThd]; exact hc)]
          rw [e]
          simp [hTlen]
        omega
      have e1 : (transpose (transpose M))[c][i] = ent (transpose (transpose M)) c i := by
        unfold ent
        rw [List.getD_eq_getElem _ _ h1, List.getD_eq_getElem _ _ hi1]
      have e2 : M[c][i] = ent M c i := by
        unfold ent
        rw [List.getD_eq_getElem _ _ hc, List.getD_eq_getElem _ _ (by omega)]
      rw [e1, e2, ent_transpose _ (by rw [hThd]; exact hc) (by rw [hTlen]; exact hin),
        ent_transpose _ (by rw [hhd]; exact hin) hc]

/-! Matmul toolkit. -/

theorem matmul_ok (A B : matrix_shape) (h : ∀ r ∈ A, r.length = B.length) :
    matmul A B = Except.ok (A.map fun r => (transpose B).map fun c => mul r c) := by
  unfold matmul
  rw [if_pos h]

theorem matmul_err (A B : matrix_shape) (h : ¬ ∀ r ∈ A, r.length = B.length) :
    matmul A B = Except.error Err.shapeMismatch := by
  unfold matmul
  rw [if_neg h]

theorem matmul_shape (A B P : matrix_shape) (h : matmul A B = Except.ok P) :
    P.length = A.length ∧ ∀ r ∈ P, r.length = (B.headD []).length := by
  unfold matmul at h
  split at h
  · obtain rfl := (Except.ok.injEq _ _).mp h.symm
    constructor
    · simp
    · intro r hr
      simp only [List.mem_map] at hr
      obtain ⟨q, _, rfl⟩ := hr
      rw [← transpose_length]
      simp
  · exact absurd h (by simp)

theorem ent_matmul (A B P : matrix_shape) (h : matmul A B = Except.ok P)
    {i j : ℕ} (hi : i < A.length) (hj : j < (B.headD []).length) :
    ent P i j = mul (A.getD i []) (B.map (fun r => r.getD j 0)) := by
  unfold matmul at h
  split at h
  · obtain rfl := (Except.ok.injEq _ _).mp h.symm
    unfold ent
    rw [getD_map_lt _ _ _ hi, getD_map_lt _ _ _ (by rw [transpose_length]; exact hj),
      List.getD_eq_getElem _ _ hi]
    congr 1
    rw [← List.getD_eq_getElem _ [] (by rw [transpose_length]; exact hj),
      transpose_row _ hj]
  · exact absurd h (by simp)

theorem ent_matmul_sum (A B P : matrix_shape)
    (h : matmul A B = Except.ok P)
    {i j : ℕ} (hi : i < A.length) (hj : j < (B.headD []).length)
    (hAi : (A.getD i []).length = B.length) :
    ent P i j = ∑ c ∈ Finset.range B.length, ent A i c * ent B c j := by
  rw [ent_matmul A B P h hi hj]
  rw [mul_eq_sum _ _ B.length hAi (by simp)]
  apply Finset.sum_congr rfl
  intro c hc
  rw [Finset.mem_range] at hc
  congr 1
  rw [getD_map_lt _ _ _ hc, ← List.getD_eq_getElem _ [] hc]
  rfl

/-! Except-monad plumbing. -/

theorem exbind_ok {α β : Type} (a : α) (f : α → Except Err β) :
    (Except.ok a >>= f) = f a := rfl

theorem exbind_err {α β : Type} (e : Err) (f : α → Except Err β) :
    ((Except.error e : Except Err α) >>= f) = Except.error e := rfl

theorem expure_eq_ok {α : Type} (a : α) : (pure a : Except Err α) = Except.ok a := rfl

/-! Characterization of the inner Gram-Schmidt loop. -/

theorem projection_value_ok (A U : matrix_shape) (i j : ℕ)
    (h : mul (U.getD j []) (U.getD j []) ≠ 0) :
    projection_value A U i j = Except.ok (projR (A.getD i []) (U.getD j [])) := by
  unfold projection_value projR
  rw [if_neg h]

theorem projection_value_err (A U : matrix_shape) (i j : ℕ)
    (h : mul (U.getD j []) (U.getD j []) = 0) :
    projection_value A U i j = Except.error Err.divisionByZero := by
  unfold projection_value
  rw [if_pos h]

theorem ortho_col_aux (A U : matrix_shape) (n c : ℕ)
    (hc : (A.getD c []).length = n) :
    ∀ j : ℕ, (∀ p < j, mul (U.getD p []) (U.getD p []) ≠ 0) →
    ∃ w, (List.range j).foldlM (ortho_step A U n c) (A.getD c []) = Except.ok w ∧
      w.length = n ∧
      ∀ i < n, w.getD i 0 = ent A c i -
        ∑ p ∈ Finset.range j, projR (A.getD c []) (U.getD p []) * ent U p i := by
  intro j
  induction j with
  | zero =>
    intro _
    refine ⟨A.getD c [], by simp [List.foldlM_nil, expure_eq_ok], hc, ?_⟩
    intro i _
    simp [ent]
  | succ j ih =>
    intro hden
    obtain ⟨w, hw, hwlen, hwent⟩ := ih (fun p hp => hden p (by omega))
    refine ⟨(List.range n).map fun i =>
      w.getD i 0 - projR (A.getD c []) (U.getD j []) * (U.getD j []).getD i 0, ?_, by simp, ?_⟩
    · rw [List.range_succ, List.foldlM_append, hw, exbind_ok]
      simp only [List.foldlM_cons, List.foldlM_nil]
      unfold ortho_step
      rw [projection_value_ok A U c j (hden j (by omega)), exbind_ok]
      rfl
    · intro i hi
      rw [getD_map_range _ _ hi, hwent i hi, Finset.sum_range_succ, sub_sub]
      rfl

theorem ortho_col_closed (A U : matrix_shape) (n c : ℕ)
    (hc : (A.getD c []).length = n)
    (hden : ∀ p < c, mul (U.getD p []) (U.getD p []) ≠ 0) :
    ortho_col A U n c = Except.ok ((List.range n).map fun i =>
      ent A c i - ∑ p ∈ Finset.range c, projR (A.getD c []) (U.getD p []) * ent U p i) := by
  obtain ⟨w, hw, hwlen, hwent⟩ := ortho_col_aux A U n c hc c hden
  unfold ortho_col
  rw [hw]
  congr 1
  exact list_eq_range_map w n _ hwlen hwent

theorem ortho_col_den_aux (A U : matrix_shape) (n c : ℕ) :
    ∀ j : ℕ, ∀ w0 w,
    (List.range j).foldlM (ortho_step A U n c) w0 = Except.ok w →
    ∀ p < j, mul (U.getD p []) (U.getD p []) ≠ 0 := by
  intro j
  induction j with
  | zero => intro _ _ _ p hp; omega
  | succ j ih =>
    intro w0 w h p hp
    rw [List.range_succ, List.foldlM_append] at h
    cases hfj : (List.range j).foldlM (ortho_step A U n c) w0 with
    | error e => rw [hfj, exbind_err] at h; exact absurd h (by simp)
    | ok w' =>
      rw [hfj, exbind_ok] at h
      rcases Nat.lt_succ_iff_lt_or_eq.mp hp with hlt | rfl
      · exact ih w0 w' hfj p hlt
      · simp only [List.foldlM_cons, List.foldlM_nil] at h
        unfold ortho_step at h
        intro hz
        rw [projection_value_err A U c p hz, exbind_err] at h
        exact absurd h (by simp)

theorem ortho_col_den (A U : matrix_shape) (n c : ℕ) (w : vector_shape)
    (h : ortho_col A U n c = Except.ok w) :
    ∀ p < c, mul (U.getD p []) (U.getD p []) ≠ 0 :=
  ortho_col_den_aux A U n c c (A.getD c []) w h

theorem ortho_col_err_aux (A U : matrix_shape) (n c : ℕ) :
    ∀ j : ℕ, ∀ w0 e,
    (List.range j).foldlM (ortho_step A U n c) w0 = Except.error e →
    e = Err.divisionByZero := by
  intro j
  induction j with
  | zero => intro w0 e h; simp [List.foldlM_nil, expure_eq_ok] at h
  | succ j ih =>
    intro w0 e h
    rw [List.range_succ, List.foldlM_append] at h
    cases hfj : (List.range j).foldlM (ortho_step A U n c) w0 with
    | error e' =>
      rw [hfj, exbind_err] at h
      have he : e' = e := by simpa using h
      exact he ▸ ih w0 e' hfj
    | ok w' =>
      rw [hfj, exbind_ok] at h
      simp only [List.foldlM_cons, List.foldlM_nil] at h
      unfold ortho_step at h
      cases hpv : projection_value A U c j with
      | error e' =>
        rw [hpv, exbind_err] at h
        have he : e' = e := by simpa using h
        by_cases hz : mul (U.getD j []) (U.getD j []) = 0
        · rw [projection_value_err A U c j hz] at hpv
          have h2 : e' = Err.divisionByZero := by simpa using hpv.symm
          rw [← he, h2]
        · rw [projection_value_ok A U c j hz] at hpv
          exact absurd hpv (by simp)
      | ok proj =>
        rw [hpv, exbind_ok] at h
        rw [expure_eq_ok, exbind_ok, expure_eq_ok] at h
        exact absurd h (by simp)

theorem ortho_col_err (A U : matrix_shape) (n c : ℕ) (e : Err)
    (h : ortho_col A U n c = Except.error e) : e = Err.divisionByZero :=
  ortho_col_err_aux A U n c c (A.getD c []) e h

/-! The classical Gram-Schmidt invariant. -/

/-- The closed form of the next orthogonalized column c: the original column
minus its projections on the already-orthogonalized columns p < c. -/
noncomputable def gs_next (A U : matrix_shape) (n c : ℕ) : vector_shape :=
  (List.range n).map fun i =>
    ent A c i - ∑ p ∈ Finset.range c, projR (A.getD c []) (U.getD p []) * ent U p i

theorem ortho_col_eq_gs_next (A U : matrix_shape) (n c : ℕ)
    (hc : (A.getD c []).length = n)
    (hden : ∀ p < c, mul (U.getD p []) (U.getD p []) ≠ 0) :
    ortho_col A U n c = Except.ok (gs_next A U n c) :=
  ortho_col_closed A U n c hc hden

theorem gs_next_length (A U : matrix_shape) (n c : ℕ) :
    (gs_next A U n c).length = n := by
  simp [gs_next]

theorem gs_next_entry (A U : matrix_shape) (n c : ℕ) {i : ℕ} (hi : i < n) :
    (gs_next A U n c).getD i 0 =
      ent A c i - ∑ p ∈ Finset.range c, projR (A.getD c []) (U.getD p []) * ent U p i :=
  getD_map_range _ _ hi

theorem gs_next_orth (A U : matrix_shape) (n c : ℕ)
    (hAc : (A.getD c []).length = n)
    (hclen : ∀ p < c, (U.getD p []).length = n)
    (horth : ∀ p < c, ∀ q < c, p ≠ q → mul (U.getD p []) (U.getD q []) = 0)
    (hnz : ∀ p < c, mul (U.getD p []) (U.getD p []) ≠ 0)
    {q : ℕ} (hq : q < c) :
    mul (gs_next A U n c) (U.getD q []) = 0 := by
  rw [mul_eq_sum _ _ n (gs_next_length A U n c) (hclen q hq)]
  have step1 : ∀ i ∈ Finset.range n,
      (gs_next A U n c).getD i 0 * (U.getD q []).getD i 0 =
      ent A c i * ent U q i -
        ∑ p ∈ Finset.range c,
          projR (A.getD c []) (U.getD p []) * (ent U p i * ent U q i) := by
    intro i hi
    rw [Finset.mem_range] at hi
    rw [gs_next_entry A U n c hi, sub_mul, Finset.sum_mul]
    congr 1
    apply Finset.sum_congr rfl
    intro p _
    rw [mul_assoc]
    rfl
  rw [Finset.sum_congr rfl step1, Finset.sum_sub_distrib]
  have first : ∑ i ∈ Finset.range n, ent A c i * ent U q i =
      mul (A.getD c []) (U.getD q []) :=
    (mul_eq_sum _ _ n hAc (hclen q hq)).symm
  have second : ∑ i ∈ Finset.range n, ∑ p ∈ Finset.range c,
      projR (A.getD c []) (U.getD p []) * (ent U p i * ent U q i) =
      mul (A.getD c []) (U.getD q []) := by
    rw [Finset.sum_comm]
    have inner : ∀ p ∈ Finset.range c,
        ∑ i ∈ Finset.range n,
          projR (A.getD c []) (U.getD p []) * (ent U p i * ent U q i) =
        projR (A.getD c []) (U.getD p []) * mul (U.getD p []) (U.getD q []) := by
      intro p hp
      rw [Finset.mem_range] at hp
      rw [← Finset.mul_sum]
      congr 1
      exact (mul_eq_sum _ _ n (hclen p hp) (hclen q hq)).symm
    rw [Finset.sum_congr rfl inner]
    rw [Finset.sum_eq_single q]
    · unfold projR
      exact div_mul_cancel₀ _ (hnz q hq)
    · intro p hp hpq
      rw [Finset.mem_range] at hp
      rw [horth p hp q hq hpq, mul_zero]
    · intro hqmem
      exact absurd (Finset.mem_range.mpr hq) hqmem
  rw [first, second, sub_self]

theorem gs_next_vecFn (A U : matrix_shape) (n c : ℕ) :
    vecFn n (gs_next A U n c) =
      vecFn n (A.getD c []) -
        ∑ p ∈ Finset.range c,
          projR (A.getD c []) (U.getD p []) • vecFn n (U.getD p []) := by
  funext i
  have e := gs_next_entry A U n c i.isLt
  simp only [vecFn, Pi.sub_apply, Finset.sum_apply, Pi.smul_apply, smul_eq_mul]
  rw [e]
  rfl

theorem getD_mem_of_lt {α : Type} (l : List α) (d : α) {i : ℕ}
    (h : i < l.length) : l.getD i d ∈ l := by
  rw [List.getD_eq_getElem _ _ h]
  exact List.getElem_mem _

theorem gs_next_spanmem (A U : matrix_shape) (n c : ℕ) (hc : c < A.length)
    (hspan : ∀ p < c, vecFn n (U.getD p []) ∈
      Submodule.span ℝ (colFam A n '' {q : Fin A.length | q.val ≤ p})) :
    vecFn n (gs_next A U n c) ∈
      Submodule.span ℝ (colFam A n '' {q : Fin A.length | q.val ≤ c}) := by
  rw [gs_next_vecFn]
  apply sub_mem
  · exact Submodule.subset_span ⟨⟨c, hc⟩, by simp, rfl⟩
  · apply Submodule.sum_mem
    intro p hp
    rw [Finset.mem_range] at hp
    apply Submodule.smul_mem
    apply Submodule.span_mono (Set.image_subset _ ?_) (hspan p hp)
    intro x hx
    simp only [Set.mem_setOf_eq] at hx ⊢
    omega

theorem gs_next_nz (A U : matrix_shape) (n c : ℕ) (hc : c < A.length)
    (hLI : columnsLI A n)
    (hspan : ∀ p < c, vecFn n (U.getD p []) ∈
      Submodule.span ℝ (colFam A n '' {q : Fin A.length | q.val ≤ p})) :
    mul (gs_next A U n c) (gs_next A U n c) ≠ 0 := by
  intro h0
  have hv : vecFn n (gs_next A U n c) = 0 := vecFn_eq_zero_of_mul_self n _ h0
  rw [gs_next_vecFn] at hv
  have hc_eq : colFam A n ⟨c, hc⟩ =
      ∑ p ∈ Finset.range c, projR (A.getD c []) (U.getD p []) • vecFn n (U.getD p []) :=
    sub_eq_zero.mp hv
  have hmem : colFam A n ⟨c, hc⟩ ∈
      Submodule.span ℝ (colFam A n '' {q : Fin A.length | q.val < c}) := by
    rw [hc_eq]
    apply Submodule.sum_mem
    intro p hp
    rw [Finset.mem_range] at hp
    apply Submodule.smul_mem
    apply Submodule.span_mono (Set.image_subset _ ?_) (hspan p hp)
    intro x hx
    simp only [Set.mem_setOf_eq] at hx ⊢
    omega
  exact LinearIndependent.not_mem_span_image hLI (by simp) hmem

/-- The loop invariant of orthogonalize_matrix, for the prefix U of
orthogonalized columns: columns have length n, are pairwise orthogonal with
nonzero self inner product, satisfy the classical Gram-Schmidt recurrence
against the original columns of A, and lie in the span of the corresponding
leading columns of A. -/
structure GSInv (A : matrix_shape) (n : ℕ) (U : matrix_shape) : Prop where
  clen : ∀ p < U.length, (U.getD p []).length = n
  orth : ∀ p < U.length, ∀ q < U.length, p ≠ q →
    mul (U.getD p []) (U.getD q []) = 0
  nz : ∀ p < U.length, mul (U.getD p []) (U.getD p []) ≠ 0
  expand : ∀ c < U.length, ∀ i < n, ent U c i =
    ent A c i - ∑ p ∈ Finset.range c, projR (A.getD c []) (U.getD p []) * ent U p i
  spanmem : ∀ p < U.length, vecFn n (U.getD p []) ∈
    Submodule.span ℝ (colFam A n '' {q : Fin A.length | q.val ≤ p})

theorem gsinv_base (A : matrix_shape) (n : ℕ) (hne : A ≠ [])
    (hrect : ∀ v ∈ A, v.length = n) (hLI : columnsLI A n) :
    GSInv A n [A.getD 0 []] := by
  have hlen : 0 < A.length := List.length_pos.mpr hne
  have hA0len : (A.getD 0 []).length = n := hrect _ (getD_mem_of_lt A [] hlen)
  constructor
  · intro p hp
    obtain rfl : p = 0 := by simpa using hp
    simpa using hA0len
  · intro p hp q hq hpq
    obtain rfl : p = 0 := by simpa using hp
    obtain rfl : q = 0 := by simpa using hq
    exact absurd rfl hpq
  · intro p hp
    obtain rfl : p = 0 := by simpa using hp
    intro h0
    have hv : vecFn n (([A.getD 0 []] : matrix_shape).getD 0 []) = 0 :=
      vecFn_eq_zero_of_mul_self n _ h0
    have hnz : colFam A n ⟨0, hlen⟩ ≠ 0 := LinearIndependent.ne_zero _ hLI
    exact hnz (by simpa [colFam] using hv)
  · intro c hc i hi
    obtain rfl : c = 0 := by simpa using hc
    simp [ent]
  · intro p hp
    obtain rfl : p = 0 := by simpa using hp
    exact Submodule.subset_span ⟨⟨0, hlen⟩, by simp, rfl⟩

theorem gsinv_step (A : matrix_shape) (n : ℕ) (U : matrix_shape)
    (hcA : U.length < A.length) (hrect : ∀ v ∈ A, v.length = n)
    (hLI : columnsLI A n) (inv : GSInv A n U) :
    GSInv A n (U ++ [gs_next A U n U.length]) := by
  have hAc : (A.getD U.length []).length = n := hrect _ (getD_mem_of_lt A [] hcA)
  have hlen' : (U ++ [gs_next A U n U.length]).length = U.length + 1 := by simp
  have hold : ∀ p < U.length,
      (U ++ [gs_next A U n U.length]).getD p [] = U.getD p [] :=
    fun p hp => getD_snoc_lt U _ [] hp
  have hnew : (U ++ [gs_next A U n U.length]).getD U.length [] =
      gs_next A U n U.length := getD_snoc_self U _ []
  have hentold : ∀ p < U.length, ∀ i : ℕ,
      ent (U ++ [gs_next A U n U.length]) p i = ent U p i := by
    intro p hp i
    unfold ent
    rw [hold p hp]
  constructor
  · intro p hp
    rw [hlen'] at hp
    rcases Nat.lt_succ_iff_lt_or_eq.mp hp with h | rfl
    · rw [hold p h]; exact inv.clen p h
    · rw [hnew]; exact gs_next_length A U n U.length
  · intro p hp q hq hpq
    rw [hlen'] at hp hq
    rcases Nat.lt_succ_iff_lt_or_eq.mp hp with h1 | rfl <;>
      rcases Nat.lt_succ_iff_lt_or_eq.mp hq with h2 | h2
    · rw [hold p h1, hold q h2]; exact inv.orth p h1 q h2 hpq
    · subst h2
      rw [hold p h1, hnew, mul_comm_list]
      exact gs_next_orth A U n U.length hAc inv.clen inv.orth inv.nz h1
    · rw [hold q h2, hnew]
      exact gs_next_orth A U n U.length hAc inv.clen inv.orth inv.nz h2
    · exact absurd (h2.symm) hpq
  · intro p hp
    rw [hlen'] at hp
    rcases Nat.lt_succ_iff_lt_or_eq.mp hp with h | rfl
    · rw [hold p h]; exact inv.nz p h
    · rw [hnew]; exact gs_next_nz A U n U.length hcA hLI inv.spanmem
  · intro c hc i hi
    rw [hlen'] at hc
    rcases Nat.lt_succ_iff_lt_or_eq.mp hc with h | rfl
    · rw [hentold c h i]
      rw [inv.expand c h i hi]
      congr 1
      apply Finset.sum_congr rfl
      intro p hp
      rw [Finset.mem_range] at hp
      rw [hold p (by omega), hentold p (by omega) i]
    · unfold ent
      rw [hnew, gs_next_entry A U n U.length hi]
      congr 1
      apply Finset.sum_congr rfl
      intro p hp
      rw [Finset.mem_range] at hp
      rw [hold p hp]
      rfl
  · intro p hp
    rw [hlen'] at hp
    rcases Nat.lt_succ_iff_lt_or_eq.mp hp with h | rfl
    · rw [hold p h]; exact inv.spanmem p h
    · rw [hnew]; exact gs_next_spanmem A U n U.length hcA inv.spanmem

theorem orthogonalize_aux (A : matrix_shape) (n : ℕ)
    (hrect : ∀ v ∈ A, v.length = n) (hne : A ≠ []) (hLI : columnsLI A n) :
    ∀ j : ℕ, j < A.length →
    ∃ U, (List.range j).foldlM (ortho_outer A n) [A.getD 0 []] = Except.ok U ∧
      U.length = j + 1 ∧ GSInv A n U := by
  intro j
  induction j with
  | zero =>
    intro _
    exact ⟨[A.getD 0 []], by simp [List.foldlM_nil, expure_eq_ok], by simp,
      gsinv_base A n hne hrect hLI⟩
  | succ j ih =>
    intro hj
    obtain ⟨U, hU, hUlen, inv⟩ := ih (by omega)
    have hcA : U.length < A.length := by omega
    have hAc : (A.getD U.length []).length = n := hrect _ (getD_mem_of_lt A [] hcA)
    have hoc : ortho_col A U n (j + 1) = Except.ok (gs_next A U n (j + 1)) := by
      rw [← hUlen]
      exact ortho_col_eq_gs_next A U n U.length hAc inv.nz
    refine ⟨U ++ [gs_next A U n U.length], ?_, by simp [hUlen], ?_⟩
    · rw [List.range_succ, List.foldlM_append, hU, exbind_ok]
      simp only [List.foldlM_cons, List.foldlM_nil]
      unfold ortho_outer
      rw [hoc, exbind_ok, hUlen]
      rfl
    · exact gsinv_step A n U hcA hrect hLI inv

theorem orthogonalize_ok (A : matrix_shape) (n : ℕ)
    (hrect : ∀ v ∈ A, v.length = n) (hne : A ≠ []) (hLI : columnsLI A n) :
    ∃ U, orthogonalize_matrix A = Except.ok U ∧ U.length = A.length ∧
      GSInv A n U := by
  have hlen : 0 < A.length := List.length_pos.mpr hne
  have hA0len : (A.getD 0 []).length = n := hrect _ (getD_mem_of_lt A [] hlen)
  obtain ⟨U, hU, hUlen, inv⟩ :=
    orthogonalize_aux A n hrect hne hLI (A.length - 1) (by omega)
  refine ⟨U, ?_, by omega, inv⟩
  unfold orthogonalize_matrix
  rw [hA0len]
  exact hU

theorem orthogonalize_err_aux (A : matrix_shape) (n : ℕ) :
    ∀ j : ℕ, ∀ (U0 : matrix_shape) (e : Err),
    (List.range j).foldlM (ortho_outer A n) U0 = Except.error e →
    e = Err.divisionByZero := by
  intro j
  induction j with
  | zero => intro U0 e h; simp [List.foldlM_nil, expure_eq_ok] at h
  | succ j ih =>
    intro U0 e h
    rw [List.range_succ, List.foldlM_append] at h
    cases hfj : (List.range j).foldlM (ortho_outer A n) U0 with
    | error e' =>
      rw [hfj, exbind_err] at h
      have he : e' = e := by simpa using h
      exact he ▸ ih U0 e' hfj
    | ok U =>
      rw [hfj, exbind_ok] at h
      simp only [List.foldlM_cons, List.foldlM_nil] at h
      unfold ortho_outer at h
      cases hoc : ortho_col A U n (j + 1) with
      | error e' =>
        rw [hoc, exbind_err] at h
        have he : e' = e := by simpa using h
        exact he ▸ ortho_col_err A U n (j + 1) e' hoc
      | ok uc =>
        rw [hoc, exbind_ok] at h
        rw [expure_eq_ok, exbind_ok, expure_eq_ok] at h
        exact absurd h (by simp)

theorem orthogonalize_err (A : matrix_shape) (e : Err)
    (h : orthogonalize_matrix A = Except.error e) : e = Err.divisionByZero := by
  unfold orthogonalize_matrix at h
  exact orthogonalize_err_aux A (A.getD 0 []).length (A.length - 1) _ e h

/-- The LI-free part of the loop invariant: what the orthogonalizer's output
looks like whenever it succeeds, regardless of rank. -/
structure GSShape (A : matrix_shape) (n : ℕ) (U : matrix_shape) : Prop where
  first : U.getD 0 [] = A.getD 0 []
  clen : ∀ p < U.length, (U.getD p []).length = n
  expand : ∀ c < U.length, ∀ i < n, ent U c i =
    ent A c i - ∑ p ∈ Finset.range c, projR (A.getD c []) (U.getD p []) * ent U p i

theorem gsshape_step (A : matrix_shape) (n : ℕ) (U : matrix_shape)
    (hUpos : 0 < U.length) (hshape : GSShape A n U) :
    GSShape A n (U ++ [gs_next A U n U.length]) := by
  have hlen' : (U ++ [gs_next A U n U.length]).length = U.length + 1 := by simp
  have hold : ∀ p < U.length,
      (U ++ [gs_next A U n U.length]).getD p [] = U.getD p [] :=
    fun p hp => getD_snoc_lt U _ [] hp
  have hnew : (U ++ [gs_next A U n U.length]).getD U.length [] =
      gs_next A U n U.length := getD_snoc_self U _ []
  have hentold : ∀ p < U.length, ∀ i : ℕ,
      ent (U ++ [gs_next A U n U.length]) p i = ent U p i := by
    intro p hp i
    unfold ent
    rw [hold p hp]
  constructor
  · rw [hold 0 hUpos]; exact hshape.first
  · intro p hp
    rw [hlen'] at hp
    rcases Nat.lt_succ_iff_lt_or_eq.mp hp with h | rfl
    · rw [hold p h]; exact hshape.clen p h
    · rw [hnew]; exact gs_next_length A U n U.length
  · intro c hc i hi
    rw [hlen'] at hc
    rcases Nat.lt_succ_iff_lt_or_eq.mp hc with h | rfl
    · rw [hentold c h i]
      rw [hshape.expand c h i hi]
      congr 1
      apply Finset.sum_congr rfl
      intro p hp
      rw [Finset.mem_range] at hp
      rw [hold p (by omega), hentold p (by omega) i]
    · unfold ent
      rw [hnew, gs_next_entry A U n U.length hi]
      congr 1
      apply Finset.sum_congr rfl
      intro p hp
      rw [Finset.mem_range] at hp
      rw [hold p hp]
      rfl

theorem orthogonalize_shape_aux (A : matrix_shape) (n : ℕ)
    (hrect : ∀ v ∈ A, v.length = n) (hne : A ≠ []) :
    ∀ j : ℕ, j < A.length → ∀ U : matrix_shape,
    (List.range j).foldlM (ortho_outer A n) [A.getD 0 []] = Except.ok U →
    U.length = j + 1 ∧ GSShape A n U := by
  have hlen : 0 < A.length := List.length_pos.mpr hne
  have hA0len : (A.getD 0 []).length = n := hrect _ (getD_mem_of_lt A [] hlen)
  intro j
  induction j with
  | zero =>
    intro _ U h
    simp only [List.range_zero, List.foldlM_nil, expure_eq_ok] at h
    obtain rfl : [A.getD 0 []] = U := by simpa using h
    refine ⟨by simp, ?_, ?_, ?_⟩
    · simp
    · intro p hp
      obtain rfl : p = 0 := by simpa using hp
      simpa using hA0len
    · intro c hc i hi
      obtain rfl : c = 0 := by simpa using hc
      simp [ent]
  | succ j ih =>
    intro hj U h
    rw [List.range_succ, List.foldlM_append] at h
    cases hfj : (List.range j).foldlM (ortho_outer A n) [A.getD 0 []] with
    | error e => rw [hfj, exbind_err] at h; exact absurd h (by simp)
    | ok U' =>
      rw [hfj, exbind_ok] at h
      obtain ⟨hU'len, hshape⟩ := ih (by omega) U' hfj
      simp only [List.foldlM_cons, List.foldlM_nil] at h
      unfold ortho_outer at h
      cases hoc : ortho_col A U' n (j + 1) with
      | error e => rw [hoc, exbind_err] at h; exact absurd h (by simp)
      | ok uc =>
        rw [hoc, exbind_ok, expure_eq_ok, exbind_ok, expure_eq_ok] at h
        obtain rfl : U' ++ [uc] = U := by simpa using h
        have hden : ∀ p < j + 1, mul (U'.getD p []) (U'.getD p []) ≠ 0 := by
          rw [← hU'len] at *
          exact ortho_col_den A U' n U'.length uc hoc
        have hAc : (A.getD (j + 1) []).length = n :=
          hrect _ (getD_mem_of_lt A [] hj)
        have huc : uc = gs_next A U' n (j + 1) := by
          have h2 := ortho_col_eq_gs_next A U' n (j + 1) hAc hden
          rw [hoc] at h2
          simpa using h2
        subst huc
        rw [← hU'len]
        constructor
        · simp [hU'len]
        · exact gsshape_step A n U' (by omega) hshape

theorem orthogonalize_shape (A : matrix_shape) (n : ℕ)
    (hrect : ∀ v ∈ A, v.length = n) (hne : A ≠ []) (U : matrix_shape)
    (h : orthogonalize_matrix A = Except.ok U) :
    U.length = A.length ∧ GSShape A n U := by
  have hlen : 0 < A.length := List.length_pos.mpr hne
  have hA0len : (A.getD 0 []).length = n := hrect _ (getD_mem_of_lt A [] hlen)
  unfold orthogonalize_matrix at h
  rw [hA0len] at h
  obtain ⟨hUlen, hshape⟩ :=
    orthogonalize_shape_aux A n hrect hne (A.length - 1) (by omega) U h
  exact ⟨by omega, hshape⟩

/-! Characterization of the normalizer. -/

/-- The normalized form of a column: each of the first n entries divided by
the column's Euclidean norm. -/
noncomputable def norm_col (n : ℕ) (u : vector_shape) : vector_shape :=
  (List.range n).map fun i => u.getD i 0 / get_vector_norm u

theorem mapM_norm_ok (n : ℕ) : ∀ L : matrix_shape,
    (∀ v ∈ L, mul v v ≠ 0) →
    (L.mapM fun u =>
      let len := get_vector_norm u
      if len = 0 ∧ 0 < n then Except.error Err.divisionByZero
      else Except.ok ((List.range n).map fun i => u.getD i 0 / len)) =
    Except.ok (L.map (norm_col n)) := by
  intro L
  induction L with
  | nil => intro _; rfl
  | cons u L ih =>
    intro h
    rw [List.mapM_cons]
    have hu : get_vector_norm u ≠ 0 := by
      rw [Ne, norm_eq_zero_iff]
      exact h u (by simp)
    show ((if get_vector_norm u = 0 ∧ 0 < n then Except.error Err.divisionByZero
      else Except.ok ((List.range n).map fun i => u.getD i 0 / get_vector_norm u)) >>= _) = _
    rw [if_neg (fun hc => hu hc.1), exbind_ok,
      ih (fun v hv => h v (by simp [hv])), exbind_ok]
    rfl

theorem mapM_norm_err_of_mem (n : ℕ) (hn : 0 < n) : ∀ L : matrix_shape,
    (∃ v ∈ L, mul v v = 0) →
    (L.mapM fun u =>
      let len := get_vector_norm u
      if len = 0 ∧ 0 < n then Except.error Err.divisionByZero
      else Except.ok ((List.range n).map fun i => u.getD i 0 / len)) =
    Except.error Err.divisionByZero := by
  intro L
  induction L with
  | nil => intro h; simp at h
  | cons u L ih =>
    intro h
    rw [List.mapM_cons]
    by_cases hu : get_vector_norm u = 0
    · show ((if get_vector_norm u = 0 ∧ 0 < n then Except.error Err.divisionByZero
        else _) >>= _) = _
      rw [if_pos ⟨hu, hn⟩, exbind_err]
    · have hL : ∃ v ∈ L, mul v v = 0 := by
        obtain ⟨v, hv, hv0⟩ := h
        rcases List.mem_cons.mp hv with rfl | hvL
        · exact absurd ((norm_eq_zero_iff v).mpr hv0) hu
        · exact ⟨v, hvL, hv0⟩
      show ((if get_vector_norm u = 0 ∧ 0 < n then Except.error Err.divisionByZero
        else Except.ok ((List.range n).map fun i => u.getD i 0 / get_vector_norm u)) >>= _) = _
      rw [if_neg (fun hc => hu hc.1), exbind_ok, ih hL, exbind_err]

theorem mapM_norm_err (n : ℕ) : ∀ (L : matrix_shape) (e : Err),
    (L.mapM fun u =>
      let len := get_vector_norm u
      if len = 0 ∧ 0 < n then Except.error Err.divisionByZero
      else Except.ok ((List.range n).map fun i => u.getD i 0 / len)) =
    Except.error e → e = Err.divisionByZero := by
  intro L
  induction L with
  | nil =>
    intro e h
    have h2 : (Except.ok ([] : matrix_shape) : Except Err matrix_shape) =
        Except.error e := h
    exact absurd h2 (by simp)
  | cons u L ih =>
    intro e h
    rw [List.mapM_cons] at h
    by_cases hu : get_vector_norm u = 0 ∧ 0 < n
    · rw [show (if get_vector_norm u = 0 ∧ 0 < n then Except.error Err.divisionByZero
        else Except.ok ((List.range n).map fun i => u.getD i 0 / get_vector_norm u)) =
        Except.error Err.divisionByZero from if_pos hu, exbind_err] at h
      simpa using h.symm
    · rw [show (if get_vector_norm u = 0 ∧ 0 < n then Except.error Err.divisionByZero
        else Except.ok ((List.range n).map fun i => u.getD i 0 / get_vector_norm u)) =
        Except.ok ((List.range n).map fun i => u.getD i 0 / get_vector_norm u) from if_neg hu,
        exbind_ok] at h
      cases hM : (L.mapM fun u =>
          let len := get_vector_norm u
          if len = 0 ∧ 0 < n then Except.error Err.divisionByZero
          else Except.ok ((List.range n).map fun i => u.getD i 0 / len)) with
      | error e' =>
        rw [hM, exbind_err] at h
        have he : e' = e := by simpa using h
        exact he ▸ ih e' hM
      | ok Q =>
        rw [hM, exbind_ok, expure_eq_ok] at h
        exact absurd h (by simp)

theorem normalize_matrix_ok (U : matrix_shape) (n : ℕ) (hne : U ≠ [])
    (hrect : ∀ v ∈ U, v.length = n) (hnz : ∀ v ∈ U, mul v v ≠ 0) :
    normalize_matrix U = Except.ok (U.map (norm_col n)) := by
  have h0 : (U.getD 0 []).length = n :=
    hrect _ (getD_mem_of_lt U [] (List.length_pos.mpr hne))
  unfold normalize_matrix
  rw [h0]
  exact mapM_norm_ok n U hnz

theorem normalize_matrix_err_of_mem (U : matrix_shape)
    (hpos : 0 < (U.getD 0 []).length)
    (h : ∃ v ∈ U, mul v v = 0) :
    normalize_matrix U = Except.error Err.divisionByZero := by
  unfold normalize_matrix
  exact mapM_norm_err_of_mem _ hpos U h

theorem normalize_matrix_err (U : matrix_shape) (e : Err)
    (h : normalize_matrix U = Except.error e) : e = Err.divisionByZero := by
  unfold normalize_matrix at h
  exact mapM_norm_err _ U e h

theorem norm_col_length (n : ℕ) (u : vector_shape) :
    (norm_col n u).length = n := by
  simp [norm_col]

theorem norm_col_entry (n : ℕ) (u : vector_shape) {i : ℕ} (hi : i < n) :
    (norm_col n u).getD i 0 = u.getD i 0 / get_vector_norm u :=
  getD_map_range _ _ hi

theorem mul_norm_col_left (n : ℕ) (u v : vector_shape) (hu : u.length = n)
    (hv : v.length = n) :
    mul (norm_col n u) v = mul u v / get_vector_norm u := by
  rw [mul_eq_sum _ _ n (norm_col_length n u) hv, mul_eq_sum u v n hu hv,
    Finset.sum_div]
  apply Finset.sum_congr rfl
  intro i hi
  rw [Finset.mem_range] at hi
  rw [norm_col_entry n u hi, div_mul_eq_mul_div]

theorem mul_norm_col_both (n : ℕ) (u v : vector_shape) (hu : u.length = n)
    (hv : v.length = n) :
    mul (norm_col n u) (norm_col n v) =
      mul u v / (get_vector_norm u * get_vector_norm v) := by
  rw [mul_eq_sum _ _ n (norm_col_length n u) (norm_col_length n v),
    mul_eq_sum u v n hu hv, Finset.sum_div]
  apply Finset.sum_congr rfl
  intro i hi
  rw [Finset.mem_range] at hi
  rw [norm_col_entry n u hi, norm_col_entry n v hi, div_mul_div_comm]

theorem rect_of_clen (U : matrix_shape) (n : ℕ)
    (h : ∀ p < U.length, (U.getD p []).length = n) : ∀ v ∈ U, v.length = n := by
  intro v hv
  obtain ⟨i, hi, rfl⟩ := List.mem_iff_getElem.mp hv
  have := h i hi
  rwa [List.getD_eq_getElem _ _ hi] at this

theorem nz_mem_of_idx (U : matrix_shape)
    (h : ∀ p < U.length, mul (U.getD p []) (U.getD p []) ≠ 0) :
    ∀ v ∈ U, mul v v ≠ 0 := by
  intro v hv
  obtain ⟨i, hi, rfl⟩ := List.mem_iff_getElem.mp hv
  have := h i hi
  rwa [List.getD_eq_getElem _ _ hi] at this

/-! Inner products of orthogonalized columns against original columns. -/

theorem mul_U_A_split (A : matrix_shape) (n : ℕ) (U : matrix_shape)
    (inv : GSInv A n U) (hrect : ∀ v ∈ A, v.length = n)
    (hUlen : U.length = A.length)
    {c j : ℕ} (hc : c < U.length) (hj : j < U.length) :
    mul (U.getD c []) (A.getD j []) =
      mul (U.getD c []) (U.getD j []) +
        ∑ p ∈ Finset.range j,
          projR (A.getD j []) (U.getD p []) * mul (U.getD c []) (U.getD p []) := by
  have hAj : (A.getD j []).length = n :=
    hrect _ (getD_mem_of_lt A [] (by omega))
  have hvent : ∀ i < n, ent A j i = ent U j i +
      ∑ p ∈ Finset.range j, projR (A.getD j []) (U.getD p []) * ent U p i := by
    intro i hi
    have := inv.expand j hj i hi
    linarith [this]
  rw [mul_eq_sum _ _ n (inv.clen c hc) hAj]
  have step1 : ∀ i ∈ Finset.range n,
      (U.getD c []).getD i 0 * (A.getD j []).getD i 0 =
      ent U c i * ent U j i +
        ∑ p ∈ Finset.range j,
          projR (A.getD j []) (U.getD p []) * (ent U c i * ent U p i) := by
    intro i hi
    rw [Finset.mem_range] at hi
    have e1 : (A.getD j []).getD i 0 = ent A j i := rfl
    rw [e1, hvent i hi, show (U.getD c []).getD i 0 = ent U c i from rfl,
      mul_add, Finset.mul_sum]
    congr 1
    apply Finset.sum_congr rfl
    intro p _
    ring
  rw [Finset.sum_congr rfl step1, Finset.sum_add_distrib]
  congr 1
  · exact (mul_eq_sum _ _ n (inv.clen c hc) (inv.clen j hj)).symm
  · rw [Finset.sum_comm]
    apply Finset.sum_congr rfl
    intro p hp
    rw [Finset.mem_range] at hp
    rw [← Finset.mul_sum]
    congr 1
    exact (mul_eq_sum _ _ n (inv.clen c hc) (inv.clen p (by omega))).symm

theorem mul_U_A_gt (A : matrix_shape) (n : ℕ) (U : matrix_shape)
    (inv : GSInv A n U) (hrect : ∀ v ∈ A, v.length = n)
    (hUlen : U.length = A.length)
    {c j : ℕ} (hc : c < U.length) (hj : j < c) :
    mul (U.getD c []) (A.getD j []) = 0 := by
  rw [mul_U_A_split A n U inv hrect hUlen hc (by omega)]
  rw [inv.orth c hc j (by omega) (by omega)]
  rw [Finset.sum_eq_zero, add_zero]
  intro p hp
  rw [Finset.mem_range] at hp
  rw [inv.orth c hc p (by omega) (by omega), mul_zero]

theorem mul_U_A_diag (A : matrix_shape) (n : ℕ) (U : matrix_shape)
    (inv : GSInv A n U) (hrect : ∀ v ∈ A, v.length = n)
    (hUlen : U.length = A.length)
    {j : ℕ} (hj : j < U.length) :
    mul (U.getD j []) (A.getD j []) = mul (U.getD j []) (U.getD j []) := by
  rw [mul_U_A_split A n U inv hrect hUlen hj hj]
  rw [Finset.sum_eq_zero, add_zero]
  intro p hp
  rw [Finset.mem_range] at hp
  rw [inv.orth j hj p (by omega) (by omega), mul_zero]

theorem mul_U_A_lt (A : matrix_shape) (n : ℕ) (U : matrix_shape)
    (inv : GSInv A n U) (hrect : ∀ v ∈ A, v.length = n)
    (hUlen : U.length = A.length)
    {c j : ℕ} (hj : j < U.length) (hc : c < j) :
    mul (U.getD c []) (A.getD j []) =
      projR (A.getD j []) (U.getD c []) * mul (U.getD c []) (U.getD c []) := by
  rw [mul_U_A_split A n U inv hrect hUlen (by omega) hj]
  rw [inv.orth c (by omega) j hj (by omega), zero_add]
  rw [Finset.sum_eq_single c]
  · intro p hp hpc
    rw [Finset.mem_range] at hp
    rw [inv.orth c (by omega) p (by omega) (Ne.symm hpc), mul_zero]
  · intro hcm
    exact absurd (Finset.mem_range.mpr hc) hcm

/-! Master characterization of the Gram-Schmidt and QR pipeline under full
column rank. -/

/-- Everything the claims need about a successful run of the pipeline on a
full-column-rank A: the orthogonalized columns U, the column-major
orthonormal factor Q0, and the row-major triangular factor R. -/
structure QRFacts (A : matrix_shape) (n : ℕ) (U Q0 R : matrix_shape) : Prop where
  inv : GSInv A n U
  hUlen : U.length = A.length
  hQ0 : Q0 = U.map (norm_col n)
  hQ0col : ∀ c < A.length, Q0.getD c [] = norm_col n (U.getD c [])
  qorth : ∀ c < A.length, ∀ d < A.length,
    mul (Q0.getD c []) (Q0.getD d []) = if c = d then 1 else 0
  hRlen : R.length = A.length
  hRrect : ∀ r ∈ R, r.length = A.length
  hRent : ∀ c < A.length, ∀ j < A.length,
    ent R c j = mul (Q0.getD c []) (A.getD j [])
  hRtri : ∀ c < A.length, ∀ j < A.length, j < c → ent R c j = 0
  hRdiag : ∀ j < A.length, ent R j j = get_vector_norm (U.getD j [])
  hRdiag_pos : ∀ j < A.length, 0 < ent R j j

theorem Q0_length (A : matrix_shape) (n : ℕ) (U Q0 R : matrix_shape)
    (f : QRFacts A n U Q0 R) : Q0.length = A.length := by
  rw [f.hQ0]
  simpa using f.hUlen

theorem Q0_rect (A : matrix_shape) (n : ℕ) (U Q0 R : matrix_shape)
    (f : QRFacts A n U Q0 R) : ∀ r ∈ Q0, r.length = n := by
  intro r hr
  rw [f.hQ0] at hr
  obtain ⟨u, _, rfl⟩ := List.mem_map.mp hr
  exact norm_col_length n u

theorem gram_schmidt_ok (A : matrix_shape) (n : ℕ)
    (hrect : ∀ v ∈ A, v.length = n) (hne : A ≠ []) (hLI : columnsLI A n) :
    ∃ U, orthogonalize_matrix A = Except.ok U ∧ U.length = A.length ∧
      GSInv A n U ∧
      normalize_matrix U = Except.ok (U.map (norm_col n)) ∧
      gram_schmidt_orthonormalization A = Except.ok (U.map (norm_col n)) := by
  obtain ⟨U, hU, hUlen, inv⟩ := orthogonalize_ok A n hrect hne hLI
  have hUne : U ≠ [] := by
    intro h
    rw [h] at hUlen
    exact hne (List.length_eq_zero.mp hUlen.symm)
  have hnorm : normalize_matrix U = Except.ok (U.map (norm_col n)) :=
    normalize_matrix_ok U n hUne (rect_of_clen U n inv.clen)
      (nz_mem_of_idx U inv.nz)
  refine ⟨U, hU, hUlen, inv, hnorm, ?_⟩
  unfold gram_schmidt_orthonormalization
  rw [hU, exbind_ok, hnorm, exbind_ok]
  rfl

theorem qr_ok (A : matrix_shape) (n : ℕ) (hn : 0 < n)
    (hrect : ∀ v ∈ A, v.length = n) (hne : A ≠ []) (hLI : columnsLI A n) :
    ∃ U Q0 R, orthogonalize_matrix A = Except.ok U ∧
      gram_schmidt_orthonormalization A = Except.ok Q0 ∧
      qr_decomposition A = Except.ok (transpose Q0, R) ∧
      QRFacts A n U Q0 R := by
  obtain ⟨U, hU, hUlen, inv, hnorm, hgs⟩ := gram_schmidt_ok A n hrect hne hLI
  set Q0 := U.map (norm_col n) with hQ0def
  have hApos : 0 < A.length := List.length_pos.mpr hne
  have hQ0len : Q0.length = A.length := by rw [hQ0def]; simpa using hUlen
  have hQ0ne : Q0 ≠ [] := by
    intro h
    rw [h] at hQ0len
    simp at hQ0len
    omega
  have hQ0col : ∀ c < A.length, Q0.getD c [] = norm_col n (U.getD c []) := by
    intro c hc
    rw [hQ0def, getD_map_lt _ _ _ (by omega : c < U.length),
      List.getD_eq_getElem _ _ (by omega : c < U.length)]
  have hQ0rect : ∀ r ∈ Q0, r.length = n := by
    intro r hr
    rw [hQ0def] at hr
    obtain ⟨u, _, rfl⟩ := List.mem_map.mp hr
    exact norm_col_length n u
  have hAhd : (A.headD []).length = n := headD_length_of_rect A n hne hrect
  have hA2len : (transpose A).length = n := by rw [transpose_length, hAhd]
  have hTT : transpose (transpose Q0) = Q0 :=
    transpose_transpose Q0 n hQ0ne hn hQ0rect
  have hmm : matmul Q0 (transpose A) =
      Except.ok (Q0.map fun r => (transpose (transpose A)).map fun c => mul r c) :=
    matmul_ok Q0 (transpose A) (by
      intro r hr
      rw [hA2len]
      exact hQ0rect r hr)
  set R := Q0.map fun r => (transpose (transpose A)).map fun c => mul r c with hRdef
  have hqr : qr_decomposition A = Except.ok (transpose Q0, R) := by
    unfold qr_decomposition
    rw [hgs, exbind_ok]
    unfold get_r_matrix
    dsimp only
    rw [hTT, hmm, exbind_ok]
    rfl
  have hA2hd : ((transpose A).headD []).length = A.length := by
    rw [show (transpose A).headD [] = (transpose A).getD 0 [] from by
      cases transpose A <;> rfl]
    exact transpose_row_length A (by omega)
  have hRshape := matmul_shape Q0 (transpose A) R hmm
  have hRlen : R.length = A.length := by rw [hRshape.1, hQ0len]
  have hRrect : ∀ r ∈ R, r.length = A.length := by
    intro r hr
    rw [hRshape.2 r hr, hA2hd]
  have hUrect_mem : ∀ v ∈ U, v.length = n := rect_of_clen U n inv.clen
  have hRent : ∀ c < A.length, ∀ j < A.length,
      ent R c j = mul (Q0.getD c []) (A.getD j []) := by
    intro c hc j hj
    have := ent_matmul_sum Q0 (transpose A) R hmm
      (by omega : c < Q0.length) (by rw [hA2hd]; exact hj)
      (by rw [hQ0col c hc, hA2len]; exact norm_col_length n _)
    rw [this, hA2len]
    have hstep : ∀ k ∈ Finset.range n,
        ent Q0 c k * ent (transpose A) k j = ent Q0 c k * ent A j k := by
      intro k hk
      rw [Finset.mem_range] at hk
      rw [ent_transpose A (by rw [hAhd]; exact hk) hj]
    rw [Finset.sum_congr rfl hstep]
    exact (mul_eq_sum _ _ n (by rw [hQ0col c hc]; exact norm_col_length n _)
      (hrect _ (getD_mem_of_lt A [] hj))).symm
  have hdiagval : ∀ j < A.length,
      ent R j j = get_vector_norm (U.getD j []) := by
    intro j hj
    rw [hRent j hj j hj, hQ0col j hj,
      mul_norm_col_left n _ _ (inv.clen j (by omega))
        (hrect _ (getD_mem_of_lt A [] hj)),
      mul_U_A_diag A n U inv hrect hUlen (by omega)]
    unfold get_vector_norm
    exact Real.div_sqrt
  have hUposmul : ∀ j < A.length, 0 < mul (U.getD j []) (U.getD j []) := by
    intro j hj
    rcases lt_or_eq_of_le (mul_self_nonneg_list (U.getD j [])) with h | h
    · exact h
    · exact absurd h.symm (inv.nz j (by omega))
  constructor
  constructor
  constructor
  refine ⟨hU, hgs, hqr, ?_⟩
  constructor
  case inv => exact inv
  case hUlen => exact hUlen
  case hQ0 => rfl
  case hQ0col => exact hQ0col
  case qorth =>
    intro c hc d hd
    rw [hQ0col c hc, hQ0col d hd,
      mul_norm_col_both n _ _ (inv.clen c (by omega)) (inv.clen d (by omega))]
    by_cases hcd : c = d
    · subst hcd
      rw [if_pos rfl]
      unfold get_vector_norm
      rw [Real.mul_self_sqrt (mul_self_nonneg_list _)]
      exact div_self (inv.nz c (by omega))
    · rw [if_neg hcd, inv.orth c (by omega) d (by omega) hcd, zero_div]
  case hRlen => exact hRlen
  case hRrect => exact hRrect
  case hRent => exact hRent
  case hRtri =>
    intro c hc j hj hjc
    rw [hRent c hc j hj, hQ0col c hc,
      mul_norm_col_left n _ _ (inv.clen c (by omega))
        (hrect _ (getD_mem_of_lt A [] hj)),
      mul_U_A_gt A n U inv hrect hUlen (by omega) hjc, zero_div]
  case hRdiag => exact hdiagval
  case hRdiag_pos =>
    intro j hj
    rw [hdiagval j hj]
    unfold get_vector_norm
    rw [Real.sqrt_pos]
    exact hUposmul j hj

/-! Identity matrix, matrix equality, and transpose shape helpers. -/

theorem ent_idMat (m : ℕ) {i j : ℕ} (hi : i < m) (hj : j < m) :
    ent (idMat m) i j = if i = j then 1 else 0 := by
  unfold ent idMat
  rw [getD_map_range _ _ hi, getD_map_range _ _ hj]

theorem idMat_length (m : ℕ) : (idMat m).length = m := by
  simp [idMat]

theorem idMat_rect (m : ℕ) : ∀ r ∈ idMat m, r.length = m := by
  intro r hr
  unfold idMat at hr
  obtain ⟨i, _, rfl⟩ := List.mem_map.mp hr
  simp

theorem mat_eq_of_ent (M N : matrix_shape) (k l : ℕ)
    (hM : M.length = k) (hN : N.length = k)
    (hMr : ∀ r ∈ M, r.length = l) (hNr : ∀ r ∈ N, r.length = l)
    (h : ∀ i < k, ∀ j < l, ent M i j = ent N i j) : M = N := by
  apply List.ext_getElem (by omega)
  intro i h1 h2
  apply List.ext_getElem
  · rw [hMr _ (List.getElem_mem _), hNr _ (List.getElem_mem _)]
  · intro j hj1 hj2
    have hjl : j < l := by
      have := hMr _ (List.getElem_mem h1)
      omega
    have e1 : M[i][j] = ent M i j := by
      unfold ent
      rw [List.getD_eq_getElem _ _ h1, List.getD_eq_getElem _ _ hj1]
    have e2 : N[i][j] = ent N i j := by
      unfold ent
      rw [List.getD_eq_getElem _ _ h2, List.getD_eq_getElem _ _ hj2]
    rw [e1, e2]
    exact h i (by omega) j hjl

theorem transpose_rect (M : matrix_shape) :
    ∀ r ∈ transpose M, r.length = M.length := by
  intro r hr
  unfold transpose at hr
  obtain ⟨i, _, rfl⟩ := List.mem_map.mp hr
  simp

theorem norm_mul_self (v : vector_shape) :
    get_vector_norm v * get_vector_norm v = mul v v :=
  Real.mul_self_sqrt (mul_self_nonneg_list v)

theorem norm_pos_of_nz (v : vector_shape) (h : mul v v ≠ 0) :
    0 < get_vector_norm v := by
  unfold get_vector_norm
  rw [Real.sqrt_pos]
  rcases lt_or_eq_of_le (mul_self_nonneg_list v) with h2 | h2
  · exact h2
  · exact absurd h2.symm h

/-! The orthonormality product Qᵗ·Q and the reconstruction Q·R. -/

theorem QtQ_identity (A : matrix_shape) (n : ℕ) (hn : 0 < n)
    (hne : A ≠ []) (U Q0 R : matrix_shape) (f : QRFacts A n U Q0 R) :
    matmul Q0 (transpose Q0) = Except.ok (idMat A.length) := by
  have hApos : 0 < A.length := List.length_pos.mpr hne
  have hQ0len : Q0.length = A.length := Q0_length A n U Q0 R f
  have hQ0rect : ∀ r ∈ Q0, r.length = n := Q0_rect A n U Q0 R f
  have hQ0ne : Q0 ≠ [] := by
    intro h
    rw [h] at hQ0len
    simp at hQ0len
    omega
  have hQ0hd : (Q0.headD []).length = n := headD_length_of_rect Q0 n hQ0ne hQ0rect
  have hTlen : (transpose Q0).length = n := by rw [transpose_length, hQ0hd]
  have hmm : matmul Q0 (transpose Q0) = Except.ok
      (Q0.map fun r => (transpose (transpose Q0)).map fun c => mul r c) :=
    matmul_ok _ _ (by intro r hr; rw [hTlen]; exact hQ0rect r hr)
  set P := Q0.map fun r => (transpose (transpose Q0)).map fun c => mul r c with hPdef
  have hThd : ((transpose Q0).headD []).length = Q0.length :=
    headD_length_of_rect _ _ (by
      intro h
      rw [h] at hTlen
      simp at hTlen
      omega) (transpose_rect Q0)
  have hshape := matmul_shape Q0 (transpose Q0) P hmm
  rw [hmm]
  congr 1
  apply mat_eq_of_ent P (idMat A.length) A.length A.length
    (by rw [hshape.1, hQ0len]) (idMat_length A.length)
    (by
      intro r hr
      rw [hshape.2 r hr, hThd, hQ0len]) (idMat_rect A.length)
  intro c hc d hd
  rw [ent_idMat A.length hc hd]
  have hclen : c < Q0.length := by omega
  have hdlen : d < Q0.length := by omega
  have hsum := ent_matmul_sum Q0 (transpose Q0) P hmm hclen
    (show d < ((transpose Q0).headD []).length by rw [hThd]; omega)
    (by rw [hTlen]; exact hQ0rect (Q0.getD c []) (getD_mem_of_lt Q0 [] hclen))
  rw [hsum, hTlen]
  have hstep : ∀ k ∈ Finset.range n,
      ent Q0 c k * ent (transpose Q0) k d = ent Q0 c k * ent Q0 d k := by
    intro k hk
    rw [Finset.mem_range] at hk
    rw [ent_transpose Q0 (by rw [hQ0hd]; exact hk) (by omega)]
  rw [Finset.sum_congr rfl hstep]
  simp only [ent]
  rw [← mul_eq_sum _ _ n (hQ0rect (Q0.getD c []) (getD_mem_of_lt Q0 [] hclen))
      (hQ0rect (Q0.getD d []) (getD_mem_of_lt Q0 [] hdlen))]
  exact f.qorth c hc d hd

theorem QR_recombines (A : matrix_shape) (n : ℕ) (hn : 0 < n)
    (hrect : ∀ v ∈ A, v.length = n) (hne : A ≠ [])
    (U Q0 R : matrix_shape) (f : QRFacts A n U Q0 R) :
    matmul (transpose Q0) R = Except.ok (transpose A) := by
  have hApos : 0 < A.length := List.length_pos.mpr hne
  have hQ0len : Q0.length = A.length := Q0_length A n U Q0 R f
  have hQ0rect : ∀ r ∈ Q0, r.length = n := Q0_rect A n U Q0 R f
  have hQ0ne : Q0 ≠ [] := by
    intro h
    rw [h] at hQ0len
    simp at hQ0len
    omega
  have hQ0hd : (Q0.headD []).length = n := headD_length_of_rect Q0 n hQ0ne hQ0rect
  have hTlen : (transpose Q0).length = n := by rw [transpose_length, hQ0hd]
  have hRne : R ≠ [] := by
    intro h
    have h2 := f.hRlen
    rw [h] at h2
    simp at h2
    omega
  have hRhd : (R.headD []).length = A.length :=
    headD_length_of_rect R _ hRne f.hRrect
  have hmm : matmul (transpose Q0) R = Except.ok
      ((transpose Q0).map fun r => (transpose R).map fun c => mul r c) :=
    matmul_ok _ _ (by
      intro r hr
      rw [f.hRlen, ← hQ0len]
      exact transpose_rect Q0 r hr)
  set P := (transpose Q0).map fun r => (transpose R).map fun c => mul r c with hPdef
  have hshape := matmul_shape (transpose Q0) R P hmm
  have hAhd : (A.headD []).length = n := headD_length_of_rect A n hne hrect
  have hN : ∀ c < A.length, get_vector_norm (U.getD c []) ≠ 0 := by
    intro c hc
    exact ne_of_gt (norm_pos_of_nz _ (f.inv.nz c (by rw [f.hUlen]; omega)))
  rw [hmm]
  congr 1
  apply mat_eq_of_ent P (transpose A) n A.length
    (by rw [hshape.1, hTlen]) (by rw [transpose_length, hAhd])
    (by
      intro r hr
      rw [hshape.2 r hr, hRhd])
    (transpose_rect A)
  intro i hi j hj
  rw [ent_transpose A (by rw [hAhd]; exact hi) hj]
  have hsum := ent_matmul_sum (transpose Q0) R P hmm
    (by rw [hTlen]; exact hi) (by rw [hRhd]; exact hj)
    (by rw [transpose_rect Q0 _ (getD_mem_of_lt (transpose Q0) [] (by rw [hTlen]; exact hi)), hQ0len, f.hRlen])
  rw [hsum, f.hRlen]
  have hstep : ∀ c ∈ Finset.range A.length,
      ent (transpose Q0) i c * ent R c j =
      if c = j then ent U j i
      else if c < j then projR (A.getD j []) (U.getD c []) * ent U c i
      else 0 := by
    intro c hc
    rw [Finset.mem_range] at hc
    have hQent : ent (transpose Q0) i c = ent Q0 c i :=
      ent_transpose Q0 (by rw [hQ0hd]; exact hi) (by omega)
    have hQval : ent Q0 c i =
        ent U c i / get_vector_norm (U.getD c []) := by
      unfold ent
      rw [f.hQ0col c hc, norm_col_entry n _ hi]
    by_cases hcj : c = j
    · subst hcj
      rw [if_pos rfl, hQent, hQval, f.hRdiag c hc]
      exact div_mul_cancel₀ _ (hN c hc)
    · rw [if_neg hcj]
      by_cases hlt : c < j
      · rw [if_pos hlt, hQent, hQval, f.hRent c hc j hj, f.hQ0col c hc,
          mul_norm_col_left n _ _ (f.inv.clen c (by rw [f.hUlen]; omega))
            (hrect _ (getD_mem_of_lt A [] hj)),
          mul_U_A_lt A n U f.inv hrect f.hUlen (by rw [f.hUlen]; omega) hlt]
        rw [div_mul_div_comm, norm_mul_self]
        have hXne : mul (U.getD c []) (U.getD c []) ≠ 0 :=
          f.inv.nz c (by rw [f.hUlen]; omega)
        have : ent U c i * (projR (A.getD j []) (U.getD c []) *
            mul (U.getD c []) (U.getD c [])) =
            projR (A.getD j []) (U.getD c []) * ent U c i *
              mul (U.getD c []) (U.getD c []) := by ring
        rw [this, mul_div_assoc, div_self hXne, mul_one]
      · have hgt : j < c := by omega
        rw [if_neg hlt, hQent, f.hRtri c hc j hj hgt, mul_zero]
  rw [Finset.sum_congr rfl hstep]
  have hsplit : ∑ c ∈ Finset.range A.length,
      (if c = j then ent U j i
       else if c < j then projR (A.getD j []) (U.getD c []) * ent U c i
       else 0) =
      ∑ c ∈ Finset.range (j + 1),
      (if c = j then ent U j i
       else if c < j then projR (A.getD j []) (U.getD c []) * ent U c i
       else 0) := by
    symm
    apply Finset.sum_subset
    · intro x hx
      rw [Finset.mem_range] at hx ⊢
      omega
    · intro x _ hx
      rw [Finset.mem_range] at hx
      rw [if_neg (by omega), if_neg (by omega)]
  rw [hsplit, Finset.sum_range_succ, if_pos rfl]
  have hrest : ∀ c ∈ Finset.range j,
      (if c = j then ent U j i
       else if c < j then projR (A.getD j []) (U.getD c []) * ent U c i
       else 0) = projR (A.getD j []) (U.getD c []) * ent U c i := by
    intro c hc
    rw [Finset.mem_range] at hc
    rw [if_neg (by omega), if_pos hc]
  rw [Finset.sum_congr rfl hrest]
  have hexp := f.inv.expand j (by rw [f.hUlen]; exact hj) i hi
  linarith [hexp]

/-! The modelled inverse collaborator. -/

theorem toSquare_ent (M : matrix_shape) (k : ℕ) (i j : Fin k) :
    toSquare M k i j = ent M i.val j.val := rfl

theorem ofSquare_length (k : ℕ) (N : Matrix (Fin k) (Fin k) ℝ) :
    (ofSquare k N).length = k := by
  simp [ofSquare]

theorem ofSquare_rect (k : ℕ) (N : Matrix (Fin k) (Fin k) ℝ) :
    ∀ r ∈ ofSquare k N, r.length = k := by
  intro r hr
  unfold ofSquare at hr
  obtain ⟨i, _, rfl⟩ := List.mem_map.mp hr
  simp

theorem ent_ofSquare (k : ℕ) (N : Matrix (Fin k) (Fin k) ℝ) {i j : ℕ}
    (hi : i < k) (hj : j < k) :
    ent (ofSquare k N) i j = N ⟨i, hi⟩ ⟨j, hj⟩ := by
  unfold ent ofSquare
  rw [getD_map_lt _ _ _ (by simpa using hi), getD_map_lt _ _ _ (by simpa using hj)]
  congr 1 <;> simp

theorem inverse_ok (M : matrix_shape) (hsq : ∀ r ∈ M, r.length = M.length)
    (hdet : (toSquare M M.length).det ≠ 0) :
    inverse M = Except.ok (ofSquare M.length (toSquare M M.length)⁻¹) := by
  unfold inverse
  rw [if_pos ⟨hsq, hdet⟩]

theorem toSquare_det_congr (M : matrix_shape) {k l : ℕ} (h : k = l) :
    (toSquare M k).det = (toSquare M l).det := by
  subst h
  rfl

theorem toSquare_inv_ent_congr (M : matrix_shape) {k l : ℕ} (h : k = l)
    {i j : ℕ} (hik : i < k) (hjk : j < k) :
    (toSquare M k)⁻¹ ⟨i, hik⟩ ⟨j, hjk⟩ =
      (toSquare M l)⁻¹ ⟨i, h ▸ hik⟩ ⟨j, h ▸ hjk⟩ := by
  subst h
  rfl

/-! Invertibility of the triangular factor. -/

theorem R_blockTriangular (A : matrix_shape) (n : ℕ) (U Q0 R : matrix_shape)
    (f : QRFacts A n U Q0 R) :
    (toSquare R A.length).BlockTriangular id := by
  intro i j hij
  rw [toSquare_ent]
  exact f.hRtri i.val i.isLt j.val j.isLt hij

theorem R_det_pos (A : matrix_shape) (n : ℕ) (U Q0 R : matrix_shape)
    (f : QRFacts A n U Q0 R) : 0 < (toSquare R A.length).det := by
  rw [Matrix.det_of_upperTriangular (R_blockTriangular A n U Q0 R f)]
  apply Finset.prod_pos
  intro i _
  rw [toSquare_ent]
  exact f.hRdiag_pos i.val i.isLt

theorem R_det_ne_zero (A : matrix_shape) (n : ℕ) (U Q0 R : matrix_shape)
    (f : QRFacts A n U Q0 R) : (toSquare R A.length).det ≠ 0 :=
  ne_of_gt (R_det_pos A n U Q0 R f)

theorem inverse_R_ok (A : matrix_shape) (n : ℕ) (U Q0 R : matrix_shape)
    (f : QRFacts A n U Q0 R) :
    inverse R = Except.ok (ofSquare R.length (toSquare R R.length)⁻¹) :=
  inverse_ok R (fun r hr => by rw [f.hRrect r hr, f.hRlen])
    (by
      rw [toSquare_det_congr R f.hRlen]
      exact R_det_ne_zero A n U Q0 R f)

/-! The solver chain x = R⁻¹·Qᵗ·b. -/

theorem get_equation_params_ok (A : matrix_shape) (n : ℕ) (hn : 0 < n)
    (hrect : ∀ v ∈ A, v.length = n) (hne : A ≠ [])
    (U Q0 R : matrix_shape) (f : QRFacts A n U Q0 R)
    (b : vector_shape) (hb : b.length = n) :
    ∃ x, get_equation_params (transpose Q0) R b = Except.ok x ∧
      x.length = A.length ∧
      ∀ j : ℕ, ∀ hj : j < A.length, x.getD j 0 =
        qr_solution_spec (transpose Q0) R b n A.length ⟨j, hj⟩ := by
  have hApos : 0 < A.length := List.length_pos.mpr hne
  have hQ0len : Q0.length = A.length := Q0_length A n U Q0 R f
  have hQ0rect : ∀ r ∈ Q0, r.length = n := Q0_rect A n U Q0 R f
  have hQ0ne : Q0 ≠ [] := by
    intro h
    rw [h] at hQ0len
    simp at hQ0len
    omega
  have hQ0hd : (Q0.headD []).length = n := headD_length_of_rect Q0 n hQ0ne hQ0rect
  have hTT : transpose (transpose Q0) = Q0 :=
    transpose_transpose Q0 n hQ0ne hn hQ0rect
  -- the right-hand side as an n-row, 1-column matrix
  set bm := transpose [b] with hbmdef
  have hbmlen : bm.length = n := by
    rw [hbmdef, transpose_length]
    simpa using hb
  have hbmrect : ∀ r ∈ bm, r.length = 1 := by
    intro r hr
    rw [hbmdef] at hr
    simpa using transpose_rect [b] r hr
  have hbmne : bm ≠ [] := by
    intro h
    rw [h] at hbmlen
    simp at hbmlen
    omega
  have hbmhd : (bm.headD []).length = 1 := headD_length_of_rect bm 1 hbmne hbmrect
  have hbment : ∀ k < n, ent bm k 0 = b.getD k 0 := by
    intro k hk
    unfold ent
    rw [hbmdef, transpose_row [b] (by simpa [hb] using hk)]
    rfl
  -- the intermediate vector C = Qᵗ·b
  have hCmm : matmul Q0 bm =
      Except.ok (Q0.map fun r => (transpose bm).map fun c => mul r c) :=
    matmul_ok Q0 bm (by
      intro r hr
      rw [hbmlen]
      exact hQ0rect r hr)
  set C := Q0.map fun r => (transpose bm).map fun c => mul r c with hCdef
  have hCshape := matmul_shape Q0 bm C hCmm
  have hClen : C.length = A.length := by rw [hCshape.1, hQ0len]
  have hCne : C ≠ [] := by
    intro h
    rw [h] at hClen
    simp at hClen
    omega
  have hCrect : ∀ r ∈ C, r.length = 1 := by
    intro r hr
    rw [hCshape.2 r hr, hbmhd]
  have hChd : (C.headD []).length = 1 := headD_length_of_rect C 1 hCne hCrect
  have hCent : ∀ c < A.length, ent C c 0 =
      ∑ k ∈ Finset.range n, ent Q0 c k * b.getD k 0 := by
    intro c hc
    have hclen : c < Q0.length := by omega
    have := ent_matmul_sum Q0 bm C hCmm hclen
      (show 0 < (bm.headD []).length by omega)
      (by rw [hbmlen]; exact hQ0rect (Q0.getD c []) (getD_mem_of_lt Q0 [] hclen))
    rw [this, hbmlen]
    apply Finset.sum_congr rfl
    intro k hk
    rw [Finset.mem_range] at hk
    rw [hbment k hk]
  -- the inverse of R
  have hRlen : R.length = A.length := f.hRlen
  have hRinv : inverse R =
      Except.ok (ofSquare R.length (toSquare R R.length)⁻¹) :=
    inverse_R_ok A n U Q0 R f
  set Rinv := ofSquare R.length (toSquare R R.length)⁻¹ with hRinvdef
  have hRinvlen : Rinv.length = A.length := by
    rw [hRinvdef, ofSquare_length, hRlen]
  have hRinvrect : ∀ r ∈ Rinv, r.length = A.length := by
    intro r hr
    rw [hRinvdef] at hr
    rw [ofSquare_rect _ _ r hr, hRlen]
  -- the diagnostic product R·R⁻¹ (printed only)
  have hRRinv : matmul R Rinv =
      Except.ok (R.map fun r => (transpose Rinv).map fun c => mul r c) :=
    matmul_ok R Rinv (by
      intro r hr
      rw [hRinvdef, ofSquare_length, f.hRrect r hr, hRlen])
  -- the product R⁻¹·C
  have hRCmm : matmul Rinv C =
      Except.ok (Rinv.map fun r => (transpose C).map fun c => mul r c) :=
    matmul_ok Rinv C (by
      intro r hr
      rw [hClen]
      exact hRinvrect r hr)
  set RC := Rinv.map fun r => (transpose C).map fun c => mul r c with hRCdef
  have hRCshape := matmul_shape Rinv C RC hRCmm
  have hRClen : RC.length = A.length := by rw [hRCshape.1, hRinvlen]
  have hRCne : RC ≠ [] := by
    intro h
    rw [h] at hRClen
    simp at hRClen
    omega
  have hRCrect : ∀ r ∈ RC, r.length = 1 := by
    intro r hr
    rw [hRCshape.2 r hr, hChd]
  have hRChd : (RC.headD []).length = 1 := headD_length_of_rect RC 1 hRCne hRCrect
  have hRCent : ∀ j < A.length, ent RC j 0 =
      ∑ c ∈ Finset.range A.length, ent Rinv j c * ent C c 0 := by
    intro j hj
    have hjlen : j < Rinv.length := by omega
    have := ent_matmul_sum Rinv C RC hRCmm hjlen
      (show 0 < (C.headD []).length by omega)
      (by rw [hClen]; exact hRinvrect (Rinv.getD j []) (getD_mem_of_lt Rinv [] hjlen))
    rw [this, hClen]
  -- the extracted solution column
  set x := RC.map fun r => r.getD 0 0 with hxdef
  have hxrow : (transpose RC).getD 0 [] = x := by
    rw [transpose_row RC (by omega)]
  have hxlen : x.length = A.length := by rw [hxdef]; simpa using hRClen
  have hxent : ∀ j < A.length, x.getD j 0 = ent RC j 0 := by
    intro j hj
    have hjlen : j < RC.length := by omega
    rw [hxdef, getD_map_lt _ _ _ hjlen]
    unfold ent
    rw [List.getD_eq_getElem _ _ hjlen]
  refine ⟨x, ?_, hxlen, ?_⟩
  · unfold get_equation_params
    dsimp only
    rw [hTT, hCmm, exbind_ok, hRinv, exbind_ok, hRRinv, exbind_ok,
      hRCmm, exbind_ok, hxrow]
    rfl
  · intro j hj
    rw [hxent j hj, hRCent j hj]
    unfold qr_solution_spec
    rw [show ((toSquare R A.length)⁻¹ *ᵥ
        ((Matrix.of fun (i : Fin n) (c : Fin A.length) => ent (transpose Q0) i c)ᵀ *ᵥ
          vecFn n b)) ⟨j, hj⟩ =
        ∑ c : Fin A.length, (toSquare R A.length)⁻¹ ⟨j, hj⟩ c *
          ((Matrix.of fun (i : Fin n) (c : Fin A.length) => ent (transpose Q0) i c)ᵀ *ᵥ
            vecFn n b) c from by
      simp [Matrix.mulVec, Matrix.dotProduct]]
    rw [← Fin.sum_univ_eq_sum_range (fun c => ent Rinv j c * ent C c 0) A.length]
    apply Finset.sum_congr rfl
    intro c _
    congr 1
    · rw [hRinvdef, ent_ofSquare _ _ (show j < R.length by omega)
        (show c.val < R.length by omega),
        toSquare_inv_ent_congr R (f.hRlen) (show j < R.length by omega)
          (show c.val < R.length by omega)]
    · rw [hCent c.val c.isLt]
      rw [show ((Matrix.of fun (i : Fin n) (d : Fin A.length) => ent (transpose Q0) i d)ᵀ *ᵥ
          vecFn n b) c =
          ∑ k : Fin n, ent (transpose Q0) k c * vecFn n b k from by
        simp [Matrix.mulVec, Matrix.dotProduct, Matrix.transpose_apply]]
      rw [← Fin.sum_univ_eq_sum_range (fun k => ent Q0 c.val k * b.getD k 0) n]
      apply Finset.sum_congr rfl
      intro k _
      rw [ent_transpose Q0 (show k.val < (Q0.headD []).length by omega)
        (show c.val < Q0.length by omega)]
      rfl

theorem getLastD_mem {α : Type} : ∀ (l : List α) (d : α), l ≠ [] →
    l.getLastD d ∈ l := by
  intro l
  induction l with
  | nil => intro d h; exact absurd rfl h
  | cons a l ih =>
    intro d _
    cases l with
    | nil => simp
    | cons b l =>
      have := ih d (by simp)
      simpa using Or.inr (by simpa using this)

theorem solve_ok (M : matrix_shape) (n : ℕ) (hn : 0 < n)
    (hrect : ∀ v ∈ M, v.length = n) (hM2 : 2 ≤ M.length)
    (hLI : columnsLI M.dropLast n) :
    ∃ Q0 R x, gram_schmidt_orthonormalization M.dropLast = Except.ok Q0 ∧
      qr_decomposition M.dropLast = Except.ok (transpose Q0, R) ∧
      solve_with_qr_decomposition M = Except.ok x ∧
      x.length = M.dropLast.length ∧
      ∀ j : ℕ, ∀ hj : j < M.dropLast.length, x.getD j 0 =
        qr_solution_spec (transpose Q0) R (M.getLastD []) n
          M.dropLast.length ⟨j, hj⟩ := by
  have hAlen : M.dropLast.length = M.length - 1 := by simp
  have hAne : M.dropLast ≠ [] := by
    intro h
    rw [h] at hAlen
    simp at hAlen
    omega
  have hArect : ∀ v ∈ M.dropLast, v.length = n := by
    intro v hv
    exact hrect v (List.dropLast_subset M hv)
  have hb : (M.getLastD []).length = n :=
    hrect _ (getLastD_mem M [] (by
      intro h
      rw [h] at hM2
      simp at hM2))
  obtain ⟨U, Q0, R, hU, hgs, hqr, f⟩ :=
    qr_ok M.dropLast n hn hArect hAne hLI
  obtain ⟨x, hx, hxlen, hxent⟩ :=
    get_equation_params_ok M.dropLast n hn hArect hAne U Q0 R f
      (M.getLastD []) hb
  refine ⟨Q0, R, x, hgs, hqr, ?_, hxlen, hxent⟩
  unfold solve_with_qr_decomposition split_by_vectors
  dsimp only
  rw [hqr, exbind_ok]
  exact hx

/-! Concrete-input helpers for the claim instances. -/

theorem columnsLI_diag2 (a d : ℝ) (ha : a ≠ 0) (hd : d ≠ 0) :
    columnsLI [[a, 0], [0, d]] 2 := by
  rw [columnsLI, Fintype.linearIndependent_iff]
  intro g hg c
  have h0 := congrFun hg 0
  have h1 := congrFun hg 1
  simp [colFam, vecFn, Fin.sum_univ_two] at h0 h1
  fin_cases c
  · rcases h0 with h | h
    · exact h
    · exact absurd h ha
  · rcases h1 with h | h
    · exact h
    · exact absurd h hd

theorem columnsLI_single (a : ℝ) (ha : a ≠ 0) : columnsLI [[a]] 1 := by
  rw [columnsLI, Fintype.linearIndependent_iff]
  intro g hg c
  have h0 := congrFun hg 0
  simp [colFam, vecFn, Fin.sum_univ_one] at h0
  fin_cases c
  rcases h0 with h | h
  · exact h
  · exact absurd h ha

theorem qr_solution_spec_congr (Q R : matrix_shape) (b : vector_shape)
    (n : ℕ) {k l : ℕ} (h : k = l) (j : ℕ) (hjk : j < k) :
    qr_solution_spec Q R b n k ⟨j, hjk⟩ =
      qr_solution_spec Q R b n l ⟨j, h ▸ hjk⟩ := by
  subst h
  rfl

theorem pair_rect (v1 v2 : vector_shape) (n : ℕ) (h1 : v1.length = n)
    (h2 : v2.length = n) : ∀ v ∈ [v1, v2], v.length = n := by
  intro v hv
  rcases List.mem_cons.mp hv with rfl | hv
  · exact h1
  · rcases List.mem_cons.mp hv with rfl | hv
    · exact h2
    · cases hv

theorem triple_rect (v1 v2 v3 : vector_shape) (n : ℕ) (h1 : v1.length = n)
    (h2 : v2.length = n) (h3 : v3.length = n) :
    ∀ v ∈ [v1, v2, v3], v.length = n := by
  intro v hv
  rcases List.mem_cons.mp hv with rfl | hv
  · exact h1
  · rcases List.mem_cons.mp hv with rfl | hv
    · exact h2
    · rcases List.mem_cons.mp hv with rfl | hv
      · exact h3
      · cases hv

theorem eval_orthogonalize_id2 :
    orthogonalize_matrix [[(1:ℝ), 0], [0, 1]] = Except.ok [[(1:ℝ), 0], [0, 1]] := by
  norm_num [orthogonalize_matrix, ortho_outer, ortho_col, ortho_step, projection_value,
    mul, List.range_succ, List.foldlM_append, List.foldlM_cons, List.foldlM_nil,
    exbind_ok, exbind_err, expure_eq_ok]

theorem eval_orthogonalize_singleton (col : vector_shape) :
    orthogonalize_matrix [col] = Except.ok [col] := by
  unfold orthogonalize_matrix
  simp only [List.length_singleton]
  rfl

theorem eval_norm_nil : get_vector_norm ([] : vector_shape) = 0 := by
  simp [get_vector_norm, mul]

theorem mapM_loop_cons {a b : Type} (f : a → Except Err b) (x : a) (l : List a)
    (acc : List b) :
    List.mapM.loop f (x :: l) acc = f x >>= fun y => List.mapM.loop f l (y :: acc) := rfl

theorem mapM_loop_nil {a b : Type} (f : a → Except Err b) (acc : List b) :
    List.mapM.loop f [] acc = Except.ok acc.reverse := rfl

theorem eval_normalize_empty :
    normalize_matrix [([] : vector_shape)] = Except.ok [[]] := by
  norm_num [normalize_matrix, get_vector_norm, mul, List.mapM_cons, List.mapM_nil,
    mapM_loop_cons, mapM_loop_nil, exbind_ok, exbind_err, expure_eq_ok]

/-! Claim theorems. -/

/-- C7: solveLinearSystem returns the hand-computed solutions of the spec's
two concrete systems: the 2×2 identity augmented with b = [3,5] gives
x = [3,5], and A = [[2,0],[0,2]] augmented with b = [4,6] gives x = [2,3],
exactly in exact arithmetic. -/
theorem C7_concrete_solves :
    solve_with_qr_decomposition [[(1:ℝ), 0], [0, 1], [3, 5]] = Except.ok [3, 5] ∧
    solve_with_qr_decomposition [[(2:ℝ), 0], [0, 2], [4, 6]] = Except.ok [2, 3] := by
  constructor
  · have hfin : List.finRange 2 = [0, 1] := by decide
    have hts : toSquare [[(1:ℝ), 0], [0, 1]] 2 = 1 := by
      ext i j
      fin_cases i <;> fin_cases j <;> simp [toSquare, ent, Matrix.one_apply]
    have hI : inverse [[(1:ℝ), 0], [0, 1]] = Except.ok [[(1:ℝ), 0], [0, 1]] := by
      rw [inverse_ok [[(1:ℝ), 0], [0, 1]]
        (pair_rect [1, 0] [0, 1] 2 rfl rfl)
        (by
          show (toSquare [[(1:ℝ), 0], [0, 1]] 2).det ≠ 0
          rw [hts]
          simp)]
      congr 1
      show ofSquare 2 (toSquare [[(1:ℝ), 0], [0, 1]] 2)⁻¹ = _
      rw [hts, inv_one]
      simp [ofSquare, hfin, Matrix.one_apply]
    norm_num [solve_with_qr_decomposition, split_by_vectors, qr_decomposition,
      get_r_matrix, get_equation_params, matmul, transpose, hI,
      gram_schmidt_orthonormalization, orthogonalize_matrix, ortho_outer, ortho_col,
      ortho_step, projection_value, normalize_matrix, get_vector_norm,
      mul, List.range_succ, List.foldlM_append, List.foldlM_cons, List.foldlM_nil,
      List.mapM_cons, List.mapM_nil, mapM_loop_cons, mapM_loop_nil, Real.sqrt_one,
      exbind_ok, exbind_err, expure_eq_ok]
  · have hfin : List.finRange 2 = [0, 1] := by decide
    have hsqrt4 : Real.sqrt 4 = 2 := by
      rw [show (4:ℝ) = 2 ^ 2 by norm_num, Real.sqrt_sq (by norm_num)]
    have hinv2 : (toSquare [[(2:ℝ), 0], [0, 2]] 2)⁻¹ =
        toSquare [[(1:ℝ)/2, 0], [0, 1/2]] 2 := by
      apply Matrix.inv_eq_right_inv
      ext i j
      fin_cases i <;> fin_cases j <;>
        simp [toSquare, ent, Matrix.mul_apply, Fin.sum_univ_two, Matrix.one_apply] <;>
        norm_num
    have hI : inverse [[(2:ℝ), 0], [0, 2]] = Except.ok [[(1:ℝ)/2, 0], [0, 1/2]] := by
      rw [inverse_ok [[(2:ℝ), 0], [0, 2]]
        (pair_rect [2, 0] [0, 2] 2 rfl rfl)
        (by
          show (toSquare [[(2:ℝ), 0], [0, 2]] 2).det ≠ 0
          rw [Matrix.det_fin_two]
          norm_num [toSquare, ent])]
      congr 1
      show ofSquare 2 (toSquare [[(2:ℝ), 0], [0, 2]] 2)⁻¹ = _
      rw [hinv2]
      simp [ofSquare, hfin, toSquare, ent]
    norm_num [solve_with_qr_decomposition, split_by_vectors, qr_decomposition,
      get_r_matrix, get_equation_params, matmul, transpose, hI,
      gram_schmidt_orthonormalization, orthogonalize_matrix, ortho_outer, ortho_col,
      ortho_step, projection_value, normalize_matrix, get_vector_norm,
      mul, List.range_succ, List.foldlM_append, List.foldlM_cons, List.foldlM_nil,
      List.mapM_cons, List.mapM_nil, mapM_loop_cons, mapM_loop_nil,
      Real.sqrt_one, hsqrt4,
      exbind_ok, exbind_err, expure_eq_ok]

/-- C6 counterexample: the augmented matrix [[0],[1,1]] has mismatched column
lengths (coefficient column of length 1, right-hand side of length 2), yet the
solver raises a DivisionByZero-class error, not a ShapeMismatch-class error,
and only after the orthogonalization/normalization has run: no shape
validation happens before numeric work. -/
theorem C6_counterexample :
    solve_with_qr_decomposition [[(0:ℝ)], [1, 1]] =
      Except.error Err.divisionByZero ∧
    Err.divisionByZero ≠ Err.shapeMismatch := by
  constructor
  · norm_num [solve_with_qr_decomposition, split_by_vectors, qr_decomposition,
      get_r_matrix, get_equation_params, matmul, transpose,
      gram_schmidt_orthonormalization, orthogonalize_matrix, ortho_outer, ortho_col,
      ortho_step, projection_value, normalize_matrix, get_vector_norm,
      mul, List.range_succ, List.foldlM_append, List.foldlM_cons, List.foldlM_nil,
      List.mapM_cons, List.mapM_nil, mapM_loop_cons, mapM_loop_nil, Real.sqrt_zero,
      exbind_ok, exbind_err, expure_eq_ok]
  · decide

/-- C6 amended: solve_with_qr_decomposition performs no up-front shape
validation.  A mismatched augmented matrix can fail with a DivisionByZero
error instead of ShapeMismatch when the coefficient part is degenerate (see
the counterexample).  When the coefficient columns are rectangular of length
n and linearly independent and only the right-hand side's length differs
from n, the error is ShapeMismatch, raised by the matmul collaborator when
forming Qᵗ·b — after the QR decomposition has already been computed
successfully. -/
theorem C6_amended (M : matrix_shape) (n : ℕ) (hn : 0 < n)
    (hrectA : ∀ v ∈ M.dropLast, v.length = n) (hAne : M.dropLast ≠ [])
    (hLI : columnsLI M.dropLast n)
    (hb : (M.getLastD []).length ≠ n) :
    (∃ Q R, qr_decomposition M.dropLast = Except.ok (Q, R)) ∧
    solve_with_qr_decomposition M = Except.error Err.shapeMismatch := by
  obtain ⟨U, Q0, R, hU, hgs, hqr, f⟩ := qr_ok M.dropLast n hn hrectA hAne hLI
  have hQ0len : Q0.length = M.dropLast.length := Q0_length _ n U Q0 R f
  have hQ0rect : ∀ r ∈ Q0, r.length = n := Q0_rect _ n U Q0 R f
  have hApos : 0 < M.dropLast.length := List.length_pos.mpr hAne
  have hQ0ne : Q0 ≠ [] := List.length_pos.mp (by omega)
  have hTT : transpose (transpose Q0) = Q0 :=
    transpose_transpose Q0 n hQ0ne hn hQ0rect
  have hbmlen : (transpose [M.getLastD []]).length = (M.getLastD []).length := by
    rw [transpose_length]
    rfl
  have hmmerr : matmul Q0 (transpose [M.getLastD []]) =
      Except.error Err.shapeMismatch := by
    apply matmul_err
    intro hall
    have h0 : Q0.getD 0 [] ∈ Q0 := getD_mem_of_lt Q0 [] (by omega)
    have := hall _ h0
    rw [hQ0rect _ h0] at this
    rw [hbmlen] at this
    exact hb this.symm
  refine ⟨⟨transpose Q0, R, hqr⟩, ?_⟩
  unfold solve_with_qr_decomposition split_by_vectors
  dsimp only
  rw [hqr, exbind_ok]
  unfold get_equation_params
  dsimp only
  rw [hTT, hmmerr, exbind_err]

/-- C10 counterexample: the empty column is an all-zero single column (its
squared norm is zero), the orthogonalizer copies it without dividing, but no
zero-norm failure surfaces later in normalize_matrix either: the per-entry
division loop is empty for a length-0 column, so normalization succeeds. -/
theorem C10_counterexample :
    mul ([] : vector_shape) ([] : vector_shape) = 0 ∧
    orthogonalize_matrix [([] : vector_shape)] = Except.ok [[]] ∧
    normalize_matrix [([] : vector_shape)] = Except.ok [[]] :=
  ⟨mul_nil_left [], eval_orthogonalize_singleton [], eval_normalize_empty⟩

/-- C10 amended: orthogonalize_matrix on a single-column matrix returns a copy
of the column and performs no division at all, so it succeeds even on an
all-zero column; for a zero single-column input with at least one entry the
zero-norm failure surfaces only later, in normalize_matrix, and hence in the
Gram-Schmidt pipeline (the empty zero column instead passes through
normalization untouched, since the division sits inside the per-entry
loop). -/
theorem C10_single_column (col : vector_shape) :
    orthogonalize_matrix [col] = Except.ok [col] ∧
    (mul col col = 0 → 0 < col.length →
      normalize_matrix [col] = Except.error Err.divisionByZero ∧
      gram_schmidt_orthonormalization [col] = Except.error Err.divisionByZero) := by
  have hortho : orthogonalize_matrix [col] = Except.ok [col] :=
    eval_orthogonalize_singleton col
  refine ⟨hortho, ?_⟩
  intro h0 hlen
  have hnorm : normalize_matrix [col] = Except.error Err.divisionByZero :=
    normalize_matrix_err_of_mem [col] (by simpa using hlen) ⟨col, by simp, h0⟩
  refine ⟨hnorm, ?_⟩
  unfold gram_schmidt_orthonormalization
  rw [hortho, exbind_ok, hnorm, exbind_err]

/-- C1: for a well-posed augmented matrix (n rows, m+1 columns, coefficient
part of full column rank), solve_with_qr_decomposition succeeds and returns
the vector x = R⁻¹·(Qᵗ·b) for the factors (Q, R) produced by
qr_decomposition of the coefficient part A and the last column b; x has
length m, indexed in A's column order. -/
theorem C1_solver_formula (M : matrix_shape) (n m : ℕ) (hn : 0 < n)
    (hM : M.length = m + 1) (hm : 0 < m)
    (hrect : ∀ v ∈ M, v.length = n)
    (hLI : columnsLI M.dropLast n) :
    ∃ Q R x, qr_decomposition M.dropLast = Except.ok (Q, R) ∧
      solve_with_qr_decomposition M = Except.ok x ∧
      x.length = m ∧
      ∀ j : ℕ, ∀ hj : j < m, x.getD j 0 =
        qr_solution_spec Q R (M.getLastD []) n m ⟨j, hj⟩ := by
  have hM2 : 2 ≤ M.length := by omega
  obtain ⟨Q0, R, x, hgs, hqr, hsolve, hxlen, hxent⟩ := solve_ok M n hn hrect hM2 hLI
  have hdl : M.dropLast.length = m := by
    rw [List.length_dropLast, hM]
    omega
  refine ⟨transpose Q0, R, x, hqr, hsolve, by omega, ?_⟩
  intro j hj
  have hj2 : j < M.dropLast.length := by omega
  rw [hxent j hj2]
  exact qr_solution_spec_congr (transpose Q0) R (M.getLastD []) n hdl j hj2

/-- C1 witness: the well-posed system with A the 2×2 identity and b = [3,5]
satisfies the solver formula. -/
theorem C1_witness :
    ∃ Q R x,
      qr_decomposition ([[(1:ℝ), 0], [0, 1], [3, 5]] : matrix_shape).dropLast =
        Except.ok (Q, R) ∧
      solve_with_qr_decomposition [[(1:ℝ), 0], [0, 1], [3, 5]] = Except.ok x ∧
      x.length = 2 ∧
      ∀ j : ℕ, ∀ hj : j < 2, x.getD j 0 =
        qr_solution_spec Q R (([[(1:ℝ), 0], [0, 1], [3, 5]] : matrix_shape).getLastD [])
          2 2 ⟨j, hj⟩ :=
  C1_solver_formula [[(1:ℝ), 0], [0, 1], [3, 5]] 2 2 (by norm_num) rfl (by norm_num)
    (triple_rect [1, 0] [0, 1] [3, 5] 2 rfl rfl rfl)
    (columnsLI_diag2 1 1 one_ne_zero one_ne_zero)

/-- C2: for every full-column-rank matrix A, the factors (Q, R) returned by
qr_decomposition recombine to A: matmul Q R equals transpose A, which is
exactly the matrix A written in the row-major orientation in which
qr_decomposition returns Q (column-major input columns become the columns of
the row-major array). -/
theorem C2_roundtrip (A : matrix_shape) (n : ℕ) (hn : 0 < n)
    (hrect : ∀ v ∈ A, v.length = n) (hne : A ≠ []) (hLI : columnsLI A n) :
    ∃ Q R, qr_decomposition A = Except.ok (Q, R) ∧
      matmul Q R = Except.ok (transpose A) := by
  obtain ⟨U, Q0, R, hU, hgs, hqr, f⟩ := qr_ok A n hn hrect hne hLI
  exact ⟨transpose Q0, R, hqr, QR_recombines A n hn hrect hne U Q0 R f⟩

/-- C2 witness: the identity matrix recombines. -/
theorem C2_witness :
    ∃ Q R, qr_decomposition [[(1:ℝ), 0], [0, 1]] = Except.ok (Q, R) ∧
      matmul Q R = Except.ok (transpose [[(1:ℝ), 0], [0, 1]]) :=
  C2_roundtrip [[(1:ℝ), 0], [0, 1]] 2 (by norm_num)
    (pair_rect [1, 0] [0, 1] 2 rfl rfl) (by simp)
    (columnsLI_diag2 1 1 one_ne_zero one_ne_zero)

/-- C3: for every valid input A the matrix Q produced by
gram_schmidt_orthonormalization is orthonormal: with Q taken in the row-major
orientation returned by qr_decomposition (gram_schmidt's output is its
transpose), matmul (transpose Q) Q is the m×m identity. -/
theorem C3_orthonormal (A : matrix_shape) (n : ℕ) (hn : 0 < n)
    (hrect : ∀ v ∈ A, v.length = n) (hne : A ≠ []) (hLI : columnsLI A n) :
    ∃ Q R, qr_decomposition A = Except.ok (Q, R) ∧
      gram_schmidt_orthonormalization A = Except.ok (transpose Q) ∧
      matmul (transpose Q) Q = Except.ok (idMat A.length) := by
  obtain ⟨U, Q0, R, hU, hgs, hqr, f⟩ := qr_ok A n hn hrect hne hLI
  have hQ0len : Q0.length = A.length := Q0_length A n U Q0 R f
  have hQ0rect : ∀ r ∈ Q0, r.length = n := Q0_rect A n U Q0 R f
  have hQ0ne : Q0 ≠ [] := List.length_pos.mp (by
    have := List.length_pos.mpr hne
    omega)
  have hTT : transpose (transpose Q0) = Q0 :=
    transpose_transpose Q0 n hQ0ne hn hQ0rect
  refine ⟨transpose Q0, R, hqr, ?_, ?_⟩
  · rw [hTT]
    exact hgs
  · rw [hTT]
    exact QtQ_identity A n hn hne U Q0 R f

/-- C3 witness: the identity matrix gives an orthonormal Q. -/
theorem C3_witness :
    ∃ Q R, qr_decomposition [[(1:ℝ), 0], [0, 1]] = Except.ok (Q, R) ∧
      gram_schmidt_orthonormalization [[(1:ℝ), 0], [0, 1]] = Except.ok (transpose Q) ∧
      matmul (transpose Q) Q =
        Except.ok (idMat ([[(1:ℝ), 0], [0, 1]] : matrix_shape).length) :=
  C3_orthonormal [[(1:ℝ), 0], [0, 1]] 2 (by norm_num)
    (pair_rect [1, 0] [0, 1] 2 rfl rfl) (by simp)
    (columnsLI_diag2 1 1 one_ne_zero one_ne_zero)

/-- C4: whenever orthogonalize_matrix succeeds on a rectangular matrix, its
output U keeps A's column count, U[0] is A[0], and each later column c
satisfies the classical Gram-Schmidt recurrence entrywise: U[c] equals A[c]
minus the sum over prior columns p of (⟨A[c], U[p]⟩ / ⟨U[p], U[p]⟩)·U[p],
with projR computed from the original column A[c] against the
already-orthogonalized U[p]. -/
theorem C4_orthogonalize_formula (A : matrix_shape) (n : ℕ) (U : matrix_shape)
    (hrect : ∀ v ∈ A, v.length = n) (hne : A ≠ [])
    (h : orthogonalize_matrix A = Except.ok U) :
    U.length = A.length ∧ U.getD 0 [] = A.getD 0 [] ∧
    ∀ c : ℕ, 0 < c → c < U.length → ∀ i < n, ent U c i =
      ent A c i - ∑ p ∈ Finset.range c,
        projR (A.getD c []) (U.getD p []) * ent U p i := by
  obtain ⟨hlen, hshape⟩ := orthogonalize_shape A n hrect hne U h
  exact ⟨hlen, hshape.first, fun c _ hc i hi => hshape.expand c hc i hi⟩

/-- C4 witness: the Gram-Schmidt recurrence holds on the identity matrix. -/
theorem C4_witness :
    (([[(1:ℝ), 0], [0, 1]] : matrix_shape).length =
      ([[(1:ℝ), 0], [0, 1]] : matrix_shape).length) ∧
    (([[(1:ℝ), 0], [0, 1]] : matrix_shape).getD 0 [] =
      ([[(1:ℝ), 0], [0, 1]] : matrix_shape).getD 0 []) ∧
    ∀ c : ℕ, 0 < c → c < ([[(1:ℝ), 0], [0, 1]] : matrix_shape).length →
      ∀ i < 2, ent [[(1:ℝ), 0], [0, 1]] c i =
        ent [[(1:ℝ), 0], [0, 1]] c i - ∑ p ∈ Finset.range c,
          projR ([[(1:ℝ), 0], [0, 1]].getD c [])
            ([[(1:ℝ), 0], [0, 1]].getD p []) * ent [[(1:ℝ), 0], [0, 1]] p i :=
  C4_orthogonalize_formula [[(1:ℝ), 0], [0, 1]] 2 [[(1:ℝ), 0], [0, 1]]
    (pair_rect [1, 0] [0, 1] 2 rfl rfl) (by simp) eval_orthogonalize_id2

/-- C5 counterexample: the single-column matrix whose column is the empty
list reaches normalization with a column of zero Euclidean norm, yet the
pipeline raises no DivisionByZero error and returns a result: the division
sits inside the per-entry loop, which never runs for a length-0 column. -/
theorem C5_counterexample :
    get_vector_norm ([] : vector_shape) = 0 ∧
    gram_schmidt_orthonormalization [([] : vector_shape)] = Except.ok [[]] := by
  refine ⟨eval_norm_nil, ?_⟩
  unfold gram_schmidt_orthonormalization
  rw [eval_orthogonalize_singleton [], exbind_ok, eval_normalize_empty, exbind_ok]
  rfl

/-- C5 amended: for matrices whose columns have positive length n, the
Gram-Schmidt pipeline's only failure mode is the DivisionByZero-class
DegenerateInput error: every error it returns is divisionByZero (which
arises exactly from a zero squared norm used as a projection denominator
during orthogonalization); if some orthogonalized column has zero squared
norm, normalization fails with divisionByZero and no result is returned
(zero-length columns are the exception: their per-entry division loop is
empty, see the counterexample); and conversely, on linearly independent
columns the pipeline succeeds, so no division-by-zero error is raised. -/
theorem C5_degenerate_input (A : matrix_shape) (n : ℕ) (hn : 0 < n)
    (hrect : ∀ v ∈ A, v.length = n) (hne : A ≠ []) :
    (∀ e, gram_schmidt_orthonormalization A = Except.error e →
      e = Err.divisionByZero) ∧
    (∀ U, orthogonalize_matrix A = Except.ok U → (∃ v ∈ U, mul v v = 0) →
      gram_schmidt_orthonormalization A = Except.error Err.divisionByZero) ∧
    (columnsLI A n → ∃ Q, gram_schmidt_orthonormalization A = Except.ok Q) := by
  refine ⟨?_, ?_, ?_⟩
  · intro e he
    unfold gram_schmidt_orthonormalization at he
    cases ho : orthogonalize_matrix A with
    | error e2 =>
      rw [ho, exbind_err] at he
      have h2 : e2 = e := by simpa using he
      exact h2 ▸ orthogonalize_err A e2 ho
    | ok U =>
      rw [ho, exbind_ok] at he
      cases hnm : normalize_matrix U with
      | error e2 =>
        rw [hnm, exbind_err] at he
        have h2 : e2 = e := by simpa using he
        exact h2 ▸ normalize_matrix_err U e2 hnm
      | ok Q =>
        rw [hnm, exbind_ok, expure_eq_ok] at he
        exact absurd he (by simp)
  · intro U hU hzero
    obtain ⟨hUlen, hshape⟩ := orthogonalize_shape A n hrect hne U hU
    have hU0 : 0 < U.length := by
      have := List.length_pos.mpr hne
      omega
    have hpos : 0 < (U.getD 0 []).length := by
      rw [hshape.clen 0 hU0]
      exact hn
    have hnorm := normalize_matrix_err_of_mem U hpos hzero
    unfold gram_schmidt_orthonormalization
    rw [hU, exbind_ok, hnorm, exbind_err]
  · intro hLI
    obtain ⟨U, hU, hUlen, inv, hnorm, hgs⟩ := gram_schmidt_ok A n hrect hne hLI
    exact ⟨U.map (norm_col n), hgs⟩

/-- C5 witness: the error dichotomy instantiated at the 2×2 identity. -/
theorem C5_witness :
    (∀ e, gram_schmidt_orthonormalization [[(1:ℝ), 0], [0, 1]] = Except.error e →
      e = Err.divisionByZero) ∧
    (∀ U, orthogonalize_matrix [[(1:ℝ), 0], [0, 1]] = Except.ok U →
      (∃ v ∈ U, mul v v = 0) →
      gram_schmidt_orthonormalization [[(1:ℝ), 0], [0, 1]] =
        Except.error Err.divisionByZero) ∧
    (columnsLI [[(1:ℝ), 0], [0, 1]] 2 →
      ∃ Q, gram_schmidt_orthonormalization [[(1:ℝ), 0], [0, 1]] = Except.ok Q) :=
  C5_degenerate_input [[(1:ℝ), 0], [0, 1]] 2 (by norm_num)
    (pair_rect [1, 0] [0, 1] 2 rfl rfl) (by simp)

/-- C6 amended witness: A = [[1]] with b = [2,3] (row counts 1 vs 2) decomposes
fine and then fails with ShapeMismatch when forming Qᵗ·b. -/
theorem C6_witness :
    (∃ Q R, qr_decomposition ([[(1:ℝ)], [2, 3]] : matrix_shape).dropLast =
      Except.ok (Q, R)) ∧
    solve_with_qr_decomposition [[(1:ℝ)], [2, 3]] =
      Except.error Err.shapeMismatch :=
  C6_amended [[(1:ℝ)], [2, 3]] 1 (by norm_num)
    (by
      intro v hv
      rcases List.mem_cons.mp hv with rfl | hv
      · rfl
      · cases hv)
    (by simp)
    (columnsLI_single 1 one_ne_zero)
    (by simp)

/-- C8: for every full-column-rank A the factor R returned by
qr_decomposition is a square m×m matrix (m = number of columns of A) that is
upper-triangular: every entry strictly below the diagonal is zero in exact
arithmetic. -/
theorem C8_upper_triangular (A : matrix_shape) (n : ℕ) (hn : 0 < n)
    (hrect : ∀ v ∈ A, v.length = n) (hne : A ≠ []) (hLI : columnsLI A n) :
    ∃ Q R, qr_decomposition A = Except.ok (Q, R) ∧
      R.length = A.length ∧ (∀ r ∈ R, r.length = A.length) ∧
      ∀ i < A.length, ∀ j < A.length, j < i → ent R i j = 0 := by
  obtain ⟨U, Q0, R, hU, hgs, hqr, f⟩ := qr_ok A n hn hrect hne hLI
  exact ⟨transpose Q0, R, hqr, f.hRlen, f.hRrect,
    fun i hi j hj hji => f.hRtri i hi j hj hji⟩

/-- C8 witness: the triangular factor of the identity matrix. -/
theorem C8_witness :
    ∃ Q R, qr_decomposition [[(1:ℝ), 0], [0, 1]] = Except.ok (Q, R) ∧
      R.length = ([[(1:ℝ), 0], [0, 1]] : matrix_shape).length ∧
      (∀ r ∈ R, r.length = ([[(1:ℝ), 0], [0, 1]] : matrix_shape).length) ∧
      ∀ i < ([[(1:ℝ), 0], [0, 1]] : matrix_shape).length,
        ∀ j < ([[(1:ℝ), 0], [0, 1]] : matrix_shape).length,
          j < i → ent R i j = 0 :=
  C8_upper_triangular [[(1:ℝ), 0], [0, 1]] 2 (by norm_num)
    (pair_rect [1, 0] [0, 1] 2 rfl rfl) (by simp)
    (columnsLI_diag2 1 1 one_ne_zero one_ne_zero)

end QRMethod
